import Mathlib

/-
Verification of the GraphR generalized-Ramsey search code
(genramsey.py, dividedramsey.py, sparseramsey.py).

Graphs are represented as in the source: a graph of order n is a list of
n adjacency lists, each an ascending duplicate-free list of neighbours.
Python list indexing `g[v]` is modelled by `List.getD g v []`; all results
below restrict the relevant indices to be in range, where the two coincide.
Python ints are modelled by `Int` where negative values matter.
-/

abbrev Graph := List (List Nat)

def Adj (g : Graph) (u v : Nat) : Prop := v ∈ g.getD u []

instance (g : Graph) (u v : Nat) : Decidable (Adj g u v) := by
  unfold Adj; infer_instance

/-- The data-model invariant on graphs: neighbours are in range, adjacency is
symmetric and irreflexive, and each adjacency list is strictly ascending. -/
def ValidGraph (g : Graph) : Prop :=
  (∀ l ∈ g, ∀ x ∈ l, x < g.length) ∧
  (∀ u < g.length, ∀ v < g.length, Adj g u v → Adj g v u) ∧
  (∀ u < g.length, ¬ Adj g u u) ∧
  (∀ l ∈ g, l.Sorted (· < ·))

instance (g : Graph) : Decidable (ValidGraph g) := by
  unfold ValidGraph Adj; infer_instance

/-- A predicate in the sense of genramsey.py: a function taking a graph and a
set of vertices (a sorted list) and returning bool. -/
abbrev Pred := Graph → List Nat → Bool

-- genramsey.is_independent
def is_independent (g : Graph) (s : List Nat) : Bool :=
  s.all fun v => (g.getD v []).all fun x => !decide (x ∈ s)

-- genramsey.is_clique
def is_clique (g : Graph) (s : List Nat) : Bool :=
  s.all fun v => s.all fun x => decide (x = v) || decide (x ∈ g.getD v [])

/-- itertools.combinations over a list: all sublists of the given length,
in the order produced by itertools (lexicographic by position). -/
def combinations : Nat → List Nat → List (List Nat)
  | 0, _ => [[]]
  | _ + 1, [] => []
  | b + 1, x :: xs =>
      (combinations b xs).map (fun s => x :: s) ++ combinations (b + 1) xs

-- genramsey.has_fset
def has_fset (f : Pred) (b : Int) (g : Graph) : Bool :=
  if b < 0 then false
  else
    let n := g.length
    if b > (n : Int) then false
    else (combinations b.toNat (List.range n)).any fun s => f g s

-- genramsey.has_fset_with_last
def has_fset_with_last (f : Pred) (b : Int) (g : Graph) : Bool :=
  if b < 1 then false
  else
    let n := g.length
    if b > (n : Int) then false
    else (combinations (b - 1).toNat (List.range (n - 1))).any fun ss =>
      f g (ss ++ [n - 1])

/-
The k-divided predicates of dividedramsey.py. The two closures
is_k_divided and is_k_divided_compl differ only in the adjacency test
applied inside the search (`y not in g[x]` versus `y in g[x]` deciding
`continue`), so the common search loop is written once, over an abstract
test `adjtest`; each closure instantiates it with its literal test.
-/

inductive ScanRes where
  | foundBig : ScanRes
  | next : List Bool → List Nat → Nat → ScanRes

/-- The body of the inner `for y in s` loop of is_k_divided: scan the
remaining part of s, pushing fresh neighbours of x, returning early
(ScanRes.foundBig) when the component size is about to exceed k. -/
def scanNbrs (adjtest : Nat → Nat → Bool) (k : Int) (x : Nat) :
    List Nat → List Bool → List Nat → Nat → ScanRes
  | [], pushed, stack, compsize => .next pushed stack compsize
  | y :: ys, pushed, stack, compsize =>
    if pushed.getD y false || !adjtest x y then
      scanNbrs adjtest k x ys pushed stack compsize
    else if k ≤ (compsize : Int) then .foundBig
    else scanNbrs adjtest k x ys (pushed.set y true) (y :: stack) (compsize + 1)

inductive DfsRes where
  | foundBig : DfsRes
  | done : List Bool → DfsRes

/-- The `while stack` loop of is_k_divided. Each scanNbrs pass conserves the
measure `stack.length + (k - compsize).toNat` (every push also increments
compsize, which stays below k), and popping x then decreases it by one. -/
def dfsLoop (adjtest : Nat → Nat → Bool) (k : Int) (s : List Nat) :
    List Nat → List Bool → Nat → DfsRes
  | [], pushed, _ => .done pushed
  | x :: stack, pushed, compsize =>
    match h : scanNbrs adjtest k x s pushed stack compsize with
    | .foundBig => .foundBig
    | .next pushed' stack' compsize' => dfsLoop adjtest k s stack' pushed' compsize'
termination_by stack _ compsize => stack.length + (k - compsize).toNat
decreasing_by
  have key : ∀ (ys : List Nat) (p0 : List Bool) (st0 : List Nat) (c0 : Nat)
      (p1 : List Bool) (st1 : List Nat) (c1 : Nat),
      scanNbrs adjtest k x ys p0 st0 c0 = .next p1 st1 c1 →
      st1.length + (k - c1).toNat ≤ st0.length + (k - c0).toNat := by
    intro ys
    induction ys with
    | nil =>
      intro p0 st0 c0 p1 st1 c1 hrun
      simp only [scanNbrs, ScanRes.next.injEq] at hrun
      obtain ⟨rfl, rfl, rfl⟩ := hrun
      exact le_rfl
    | cons y ys ih =>
      intro p0 st0 c0 p1 st1 c1 hrun
      simp only [scanNbrs] at hrun
      split at hrun
      · exact ih _ _ _ _ _ _ hrun
      · split at hrun
        · exact absurd hrun (by simp)
        · have := ih _ _ _ _ _ _ hrun
          simp only [List.length_cons] at this
          omega
  have := key s pushed stack compsize pushed' stack' compsize' h
  simp only [List.length_cons]
  omega

/-- The outer `for v in s` loop of is_k_divided. -/
def divLoop (adjtest : Nat → Nat → Bool) (k : Int) (s : List Nat) :
    List Nat → List Bool → Bool
  | [], _ => true
  | v :: vs, pushed =>
    if pushed.getD v false then divLoop adjtest k s vs pushed
    else
      match dfsLoop adjtest k s [v] (pushed.set v true) 1 with
      | .foundBig => false
      | .done pushed' => divLoop adjtest k s vs pushed'

-- the closure returned by dividedramsey.make_k_divided_func
def is_k_divided (k : Int) (g : Graph) (s : List Nat) : Bool :=
  divLoop (fun x y => decide (y ∈ g.getD x [])) k s s (List.replicate g.length false)

-- the closure returned by dividedramsey.make_k_divided_compl_func
def is_k_divided_compl (k : Int) (g : Graph) (s : List Nat) : Bool :=
  divLoop (fun x y => !decide (y ∈ g.getD x [])) k s s (List.replicate g.length false)

-- dividedramsey.make_k_divided_func; `assert k >= 1` is modelled as
-- returning none (the assertion fires) when k < 1
def make_k_divided_func (k : Int) : Option Pred :=
  if 1 ≤ k then some (is_k_divided k) else none

-- dividedramsey.make_k_divided_compl_func
def make_k_divided_compl_func (k : Int) : Option Pred :=
  if 1 ≤ k then some (is_k_divided_compl k) else none

/-
The k-sparse predicates of sparseramsey.py.
-/

/-- The inner `for x in g[v]` loop of is_k_sparse, counting neighbours of v
inside s with early exit once the count exceeds k. -/
def sparseInner (k : Int) (s : List Nat) : List Nat → Nat → Bool
  | [], _ => true
  | x :: xs, d =>
    if decide (x ∈ s) then
      if k < ((d + 1 : Nat) : Int) then false else sparseInner k s xs (d + 1)
    else sparseInner k s xs d

-- the closure returned by sparseramsey.make_k_sparse_func
def is_k_sparse (k : Int) (g : Graph) (s : List Nat) : Bool :=
  s.all fun v => sparseInner k s (g.getD v []) 0

/-- The inner `for x in s` loop of is_k_sparse_compl, counting non-neighbours
of v inside s with early exit once the count exceeds k. -/
def sparseComplInner (k : Int) (g : Graph) (v : Nat) : List Nat → Nat → Bool
  | [], _ => true
  | x :: xs, d =>
    if !decide (x = v) && !decide (x ∈ g.getD v []) then
      if k < ((d + 1 : Nat) : Int) then false else sparseComplInner k g v xs (d + 1)
    else sparseComplInner k g v xs d

-- the closure returned by sparseramsey.make_k_sparse_compl_func
def is_k_sparse_compl (k : Int) (g : Graph) (s : List Nat) : Bool :=
  s.all fun v => sparseComplInner k g v s 0

-- sparseramsey.make_k_sparse_func (no assertion in the source)
def make_k_sparse_func (k : Int) : Pred := is_k_sparse k

-- sparseramsey.make_k_sparse_compl_func (no assertion in the source)
def make_k_sparse_compl_func (k : Int) : Pred := is_k_sparse_compl k

/-- The simple-graph complement of g on the same vertex set. -/
def complement (g : Graph) : Graph :=
  (List.range g.length).map fun v =>
    (List.range g.length).filter fun u => !decide (u = v) && !decide (u ∈ g.getD v [])

/-
External collaborators from isograph.py. The module itself is not part of
the sources; the following definitions are modelled from the spec's
collaborator contracts.
-/

/-- Modelled from the spec: isograph.graphs (the allGraphsOfOrder
collaborator, section 6); only its value at order 0 is specified and used:
the single empty graph. -/
def graphs (n : Nat) : List Graph := if n = 0 then [[]] else []

/-- Modelled from the spec: isograph.powerset (the allSubsets collaborator,
section 6): all subsets of an ordered index range, each ascending, including
the empty and the full subset. -/
def powerset (l : List Nat) : List (List Nat) :=
  (List.range (l.length + 1)).flatMap fun r => combinations r l

def adjAt (g : Graph) (u v : Nat) : Bool := decide (v ∈ g.getD u [])

def permMapsAdj (g1 g2 : Graph) (p : List Nat) : Bool :=
  (List.range g1.length).all fun u => (List.range g1.length).all fun v =>
    adjAt g1 u v == adjAt g2 (p.getD u 0) (p.getD v 0)

/-- Modelled from the spec: isograph.isomorphic (the isIsomorphic
collaborator, section 6): structural equivalence under vertex relabeling. -/
def isomorphic (g1 g2 : Graph) : Bool :=
  decide (g1.length = g2.length) &&
    (List.range g1.length).permutations.any fun p => permMapsAdj g1 g2 p

/-- Modelled from the spec: isograph.unique_iso (the dedupeByIsomorphism
collaborator, section 6): one representative per isomorphism class present
in the input, first-encountered representative retained. -/
def unique_iso (l : List Graph) : List Graph :=
  l.foldl (fun acc g => if acc.any fun r => isomorphic r g then acc else acc ++ [g]) []

/-
The extremal search engine of genramsey.py.
-/

/-- Candidate construction inside counterexamples_up_big_list:
`g = oldg + [list(vset)]` followed by `g[v] = g[v] + [n-1]` for v in vset,
with w standing for the new vertex n-1. -/
def extendGraph (oldg : Graph) (w : Nat) (vset : List Nat) : Graph :=
  vset.foldl (fun g v => g.set v (g.getD v [] ++ [w])) (oldg ++ [vset])

-- the helper generator inside genramsey._counterexamples_up
def counterexamples_up_big_list (f1 f2 : Pred) (n : Nat) (b1 b2 : Int)
    (old : List Graph) : List Graph :=
  old.flatMap fun oldg =>
    ((powerset (List.range (n - 1))).map fun vset => extendGraph oldg (n - 1) vset).filter
      fun g => !has_fset_with_last f1 b1 g && !has_fset_with_last f2 b2 g

-- genramsey._counterexamples_up
def counterexamples_up (f1 f2 : Pred) (b1 b2 : Int) (n : Nat)
    (old : List Graph) : List Graph :=
  unique_iso (counterexamples_up_big_list f1 f2 n b1 b2 old)

-- genramsey._counterexamples_zero
def counterexamples_zero (f1 f2 : Pred) (b1 b2 : Int) : List Graph :=
  (graphs 0).filter fun g => !has_fset f1 b1 g && !has_fset f2 b2 g

/-- The `for n in itertools.count(1)` loop of genramsey.extremals. The loop
has no intrinsic bound, so it is given explicit fuel; none means the fuel ran
out before the frontier became empty. -/
def extremalsLoop (f1 f2 : Pred) (b1 b2 : Int) :
    Nat → Nat → List Graph → Option (Nat × List Graph)
  | 0, _, _ => none
  | fuel + 1, n, gs =>
    let gs' := counterexamples_up f1 f2 b1 b2 n gs
    if gs'.length = 0 then some (n, gs)
    else extremalsLoop f1 f2 b1 b2 fuel (n + 1) gs'

-- genramsey.extremals (printflag output is not modelled; it does not
-- affect the returned value)
def extremals (fuel : Nat) (f1 f2 : Pred) (b1 b2 : Int) :
    Option (Nat × List Graph) :=
  let gs := counterexamples_zero f1 f2 b1 b2
  if gs.length = 0 then some (0, [])
  else extremalsLoop f1 f2 b1 b2 fuel 1 gs

namespace dividedramsey

-- dividedramsey.find_extremals; the three asserts are modelled as the
-- outer Option (none = an assertion fired), the inner Option is the
-- search fuel of extremals
def find_extremals (fuel : Nat) (k a b : Int) :
    Option (Option (Nat × List Graph)) :=
  if k < 1 then none
  else if a < 0 then none
  else if b < 0 then none
  else
    match make_k_divided_func k, make_k_divided_compl_func k with
    | some f1, some f2 => some (extremals fuel f1 f2 a b)
    | _, _ => none

end dividedramsey

namespace sparseramsey

-- sparseramsey.find_extremals; asserts modelled as in dividedramsey
def find_extremals (fuel : Nat) (k a b : Int) :
    Option (Option (Nat × List Graph)) :=
  if k < 0 then none
  else if a < 0 then none
  else if b < 0 then none
  else some (extremals fuel (make_k_sparse_func k) (make_k_sparse_compl_func k) a b)

end sparseramsey

/-
Specification-side notions: f-sets, counterexample graphs, induced
subgraphs, induced-hereditary predicates, isomorphism, components.
-/

/-- g contains an f-set of order b: some ascending in-range vertex list of
length b satisfies f. -/
def HasFset (f : Pred) (b : Int) (g : Graph) : Prop :=
  ∃ s : List Nat, s.Sorted (· < ·) ∧ (∀ x ∈ s, x < g.length) ∧
    (s.length : Int) = b ∧ f g s = true

/-- g contains an f-set of order b that contains vertex n-1 of g. -/
def HasFsetWithLast (f : Pred) (b : Int) (g : Graph) : Prop :=
  ∃ s : List Nat, s.Sorted (· < ·) ∧ (∀ x ∈ s, x < g.length) ∧
    (s.length : Int) = b ∧ (g.length - 1) ∈ s ∧ f g s = true

/-- A counterexample graph relative to f1, f2, b1, b2: no f1-set of order b1
and no f2-set of order b2. -/
def Counterexample (f1 f2 : Pred) (b1 b2 : Int) (g : Graph) : Prop :=
  ¬ HasFset f1 b1 g ∧ ¬ HasFset f2 b2 g

/-- The subgraph of g induced by vertices 0 .. m-1, keeping labels. -/
def pre (g : Graph) (m : Nat) : Graph :=
  (g.take m).map fun l => l.filter fun x => decide (x < m)

/-- The image of a vertex set under a vertex map, listed in ascending order. -/
def sortMap (φ : Nat → Nat) (s : List Nat) : List Nat :=
  List.insertionSort (· ≤ ·) (s.map φ)

/-- φ embeds h into g as an induced subgraph: range-preserving, injective,
and adjacency-preserving and -reflecting on the vertices of h. -/
def IndEmbed (h g : Graph) (φ : Nat → Nat) : Prop :=
  (∀ u, u < h.length → φ u < g.length) ∧
  (∀ u v, u < h.length → v < h.length → φ u = φ v → u = v) ∧
  (∀ u v, u < h.length → v < h.length → (Adj h u v ↔ Adj g (φ u) (φ v)))

/-- f is induced-hereditary in the sense of genramsey.py: whenever h is an
induced subgraph of a graph g and s is a set of vertices of h, s is an f-set
in h iff its image is an f-set in g. -/
def InducedHereditary (f : Pred) : Prop :=
  ∀ h g φ, IndEmbed h g φ →
    ∀ s : List Nat, s.Sorted (· < ·) → (∀ x ∈ s, x < h.length) →
      f h s = f g (sortMap φ s)

/-- One edge of the subgraph of g induced by s. -/
def IndStep (g : Graph) (s : List Nat) (u v : Nat) : Prop :=
  u ∈ s ∧ v ∈ s ∧ Adj g u v

/-- Connectivity in the subgraph of g induced by s. -/
def Reach (g : Graph) (s : List Nat) : Nat → Nat → Prop :=
  Relation.ReflTransGen (IndStep g s)

/-- The connected component of v in the subgraph of g induced by s. -/
def component (g : Graph) (s : List Nat) (v : Nat) : Set Nat :=
  {u | u ∈ s ∧ Reach g s v u}

/-- Graph isomorphism, via a permutation list p of the vertex range read as
the relabeling u ↦ p.getD u 0. -/
def IsoP (g1 g2 : Graph) : Prop :=
  g1.length = g2.length ∧ ∃ p : List Nat, p.Perm (List.range g1.length) ∧
    ∀ u v, u < g1.length → v < g1.length →
      (Adj g1 u v ↔ Adj g2 (p.getD u 0) (p.getD v 0))

/-- The set of currently pushed vertices, as a finite set. -/
def pushedF (pushed : List Bool) : Finset Nat :=
  (Finset.range pushed.length).filter fun i => pushed.getD i false = true

/-- One edge of the abstract graph determined by an adjacency test,
restricted to the subset s. -/
def AdjRel (adjtest : Nat → Nat → Bool) (s : List Nat) (u v : Nat) : Prop :=
  u ∈ s ∧ v ∈ s ∧ adjtest u v = true

/-- Connectivity through the abstract graph restricted to s. -/
def ReachT (adjtest : Nat → Nat → Bool) (s : List Nat) : Nat → Nat → Prop :=
  Relation.ReflTransGen (AdjRel adjtest s)

/-- The connected component of v in the abstract graph restricted to s. -/
def componentOf (adjtest : Nat → Nat → Bool) (s : List Nat) (v : Nat) : Set Nat :=
  {u | u ∈ s ∧ ReachT adjtest s v u}

/-- The invariant of the component search inside is_k_divided, relating the
state (pushed, stack, compsize) to the component of the start vertex v.
P0 is the set of vertices already pushed when the search of v's component
began; the stack argument is the current stack including the vertex whose
neighbours are being scanned. -/
structure DInv (adjtest : Nat → Nat → Bool) (s : List Nat) (k : Int) (v : Nat)
    (P0 : Finset Nat) (pushed : List Bool) (stack : List Nat) (cs : Nat) : Prop where
  bnd : ∀ y ∈ s, y < pushed.length
  vmem : v ∈ s
  vpush : v ∈ pushedF pushed
  vnotP0 : v ∉ P0
  P0sub : P0 ⊆ pushedF pushed
  newReach : ∀ i ∈ pushedF pushed, i ∉ P0 → i ∈ s ∧ ReachT adjtest s v i
  card_eq : cs = (pushedF pushed \ P0).card
  cs_le : (cs : Int) ≤ k
  stackPush : ∀ z ∈ stack, z ∈ pushedF pushed ∧ z ∉ P0
  stackNodup : stack.Nodup
  procClosed : ∀ x, x ∈ pushedF pushed → x ∉ P0 → x ∉ stack →
    ∀ y ∈ s, adjtest x y = true → y ∈ pushedF pushed

/-- The invariant between outer-loop iterations of is_k_divided: the pushed
set is closed under the induced adjacency and consists of vertices of s
whose components are already known to be small. -/
structure OInv (adjtest : Nat → Nat → Bool) (s : List Nat) (k : Int)
    (pushed : List Bool) : Prop where
  bnd : ∀ y ∈ s, y < pushed.length
  closed : ∀ a b, a ∈ s → b ∈ s → adjtest a b = true →
    a ∈ pushedF pushed → b ∈ pushedF pushed
  small : ∀ u ∈ pushedF pushed, u ∈ s ∧
    ((componentOf adjtest s u).ncard : Int) ≤ k

/-
Claim C8 concerns Python reference semantics: fully consuming the candidate
generator of _counterexamples_up must leave every parent graph unchanged.
To state this, the candidate construction of counterexamples_up_big_list is
repeated at the level of an explicit store: adjacency lists live in a store
of cells, a graph is a list of cell indices, `oldg + [list(vset)]` allocates
one fresh cell for the new vertex, and `g[v] = g[v] + [n-1]` allocates a
fresh cell holding the extended list and redirects the candidate's own
reference at v — these are exactly the operations performed by the Python
expressions, none of which writes to an existing cell.
-/

abbrev Store := List (List Nat)
abbrev GraphRef := List Nat

def derefGraph (st : Store) (r : GraphRef) : Graph :=
  r.map fun i => st.getD i []

/-- Build one candidate at store level. -/
def buildCandidateSt (w : Nat) (st : Store) (oldref : GraphRef) (vset : List Nat) :
    Store × GraphRef :=
  vset.foldl
    (fun p v => (p.1 ++ [p.1.getD (p.2.getD v 0) [] ++ [w]], p.2.set v p.1.length))
    (st ++ [vset], oldref ++ [st.length])

/-- The `for vset in isograph.powerset(...)` loop of
counterexamples_up_big_list, for one parent graph, at store level. -/
def candidatesForParentSt (f1 f2 : Pred) (n : Nat) (b1 b2 : Int) (oldref : GraphRef) :
    List (List Nat) → Store → Store × List GraphRef
  | [], st => (st, [])
  | vset :: vsets, st =>
    let p := buildCandidateSt (n - 1) st oldref vset
    let rest := candidatesForParentSt f1 f2 n b1 b2 oldref vsets p.1
    if !has_fset_with_last f1 b1 (derefGraph p.1 p.2) &&
        !has_fset_with_last f2 b2 (derefGraph p.1 p.2) then
      (rest.1, p.2 :: rest.2)
    else
      (rest.1, rest.2)

/-- The full generator of counterexamples_up_big_list at store level. -/
def bigListSt (f1 f2 : Pred) (n : Nat) (b1 b2 : Int) :
    List GraphRef → Store → Store × List GraphRef
  | [], st => (st, [])
  | r :: rs, st =>
    let p := candidatesForParentSt f1 f2 n b1 b2 r (powerset (List.range (n - 1))) st
    let q := bigListSt f1 f2 n b1 b2 rs p.1
    (q.1, p.2 ++ q.2)

/-- gs is a list of isomorphism-class representatives of the valid
counterexample graphs of order m: its members are valid counterexamples of
order m, every valid counterexample of order m is isomorphic to a member,
and no two members are isomorphic. -/
def LevelInv (f1 f2 : Pred) (b1 b2 : Int) (gs : List Graph) (m : Nat) : Prop :=
  (∀ g ∈ gs, ValidGraph g ∧ g.length = m ∧ Counterexample f1 f2 b1 b2 g) ∧
  (∀ h, ValidGraph h → h.length = m → Counterexample f1 f2 b1 b2 h →
    ∃ r ∈ gs, IsoP r h) ∧
  gs.Pairwise fun r1 r2 => ¬ IsoP r1 r2

/-
Basic facts about combinations: it enumerates exactly the sublists of the
given length, and over a range these are exactly the ascending in-range
vertex lists.
-/

theorem mem_combinations_iff (b : Nat) (l : List Nat) (s : List Nat) :
    s ∈ combinations b l ↔ s.length = b ∧ s.Sublist l := by
  induction l generalizing b s with
  | nil =>
    cases b with
    | zero =>
      simp only [combinations, List.mem_singleton, List.sublist_nil]
      constructor
      · rintro rfl; exact ⟨rfl, rfl⟩
      · rintro ⟨_, rfl⟩; rfl
    | succ b =>
      simp only [combinations, List.not_mem_nil, false_iff, not_and, List.sublist_nil]
      rintro h rfl
      simp at h
  | cons x xs ih =>
    cases b with
    | zero =>
      simp only [combinations, List.mem_singleton]
      constructor
      · rintro rfl; exact ⟨rfl, List.nil_sublist _⟩
      · rintro ⟨h, _⟩; exact List.length_eq_zero.mp h
    | succ b =>
      simp only [combinations, List.mem_append, List.mem_map, ih]
      rw [List.sublist_cons_iff]
      constructor
      · rintro (⟨t, ⟨hlen, hsub⟩, rfl⟩ | ⟨hlen, hsub⟩)
        · exact ⟨by simp [hlen], Or.inr ⟨t, rfl, hsub⟩⟩
        · exact ⟨hlen, Or.inl hsub⟩
      · rintro ⟨hlen, hsub | ⟨r, rfl, hsub⟩⟩
        · exact Or.inr ⟨hlen, hsub⟩
        · exact Or.inl ⟨r, ⟨by simpa using hlen, hsub⟩, rfl⟩

theorem sorted_sublist_range {n : Nat} {s : List Nat}
    (hs : s.Sorted (· < ·)) (hb : ∀ x ∈ s, x < n) :
    s.Sublist (List.range n) := by
  have hfil : (List.range n).filter (fun x => decide (x ∈ s)) = s := by
    apply List.eq_of_perm_of_sorted (r := (· < ·))
    · rw [List.perm_ext_iff_of_nodup (List.Nodup.filter _ (List.nodup_range n)) hs.nodup]
      intro a
      simp only [List.mem_filter, List.mem_range, decide_eq_true_eq]
      exact ⟨fun h => h.2, fun h => ⟨hb a h, h⟩⟩
    · exact List.Pairwise.filter _ (List.pairwise_lt_range n)
    · exact hs
  rw [← hfil]
  exact List.filter_sublist _

theorem sublist_range_sorted {n : Nat} {s : List Nat} (h : s.Sublist (List.range n)) :
    s.Sorted (· < ·) ∧ ∀ x ∈ s, x < n :=
  ⟨(List.pairwise_lt_range n).sublist h, fun x hx => List.mem_range.mp (h.subset hx)⟩

/-- The central bridge: the has_fset oracle agrees with the existence of an
f-set, with no side conditions on b. -/
theorem has_fset_true_iff (f : Pred) (b : Int) (g : Graph) :
    has_fset f b g = true ↔ HasFset f b g := by
  unfold has_fset HasFset
  split
  · rename_i hneg
    simp only [Bool.false_eq_true, false_iff, not_exists]
    intro s ⟨_, _, hlen, _⟩
    omega
  · rename_i hnonneg
    dsimp only
    split
    · rename_i hbig
      simp only [Bool.false_eq_true, false_iff, not_exists]
      intro s ⟨hs, hbnd, hlen, _⟩
      have := (sorted_sublist_range hs hbnd).length_le
      simp only [List.length_range] at this
      omega
    · rename_i hsmall
      simp only [List.any_eq_true]
      constructor
      · rintro ⟨s, hmem, hf⟩
        obtain ⟨hlen, hsub⟩ := (mem_combinations_iff _ _ _).mp hmem
        obtain ⟨hsort, hbnd⟩ := sublist_range_sorted hsub
        exact ⟨s, hsort, hbnd, by omega, hf⟩
      · rintro ⟨s, hsort, hbnd, hlen, hf⟩
        refine ⟨s, (mem_combinations_iff _ _ _).mpr ⟨by omega, sorted_sublist_range hsort hbnd⟩, hf⟩

theorem eq_singleton_of_forall_eq {l : List Nat} {a : Nat} (hnd : l.Nodup)
    (hall : ∀ x ∈ l, x = a) (hmem : a ∈ l) : l = [a] := by
  cases l with
  | nil => simp at hmem
  | cons x t =>
    have hx : x = a := hall x (by simp)
    subst hx
    cases t with
    | nil => rfl
    | cons y t' =>
      have hy : y = x := hall y (by simp)
      subst hy
      simp at hnd

theorem sorted_append_singleton {s : List Nat} {m : Nat}
    (hs : s.Sorted (· < ·)) (hb : ∀ x ∈ s, x < m) :
    (s ++ [m]).Sorted (· < ·) := by
  rw [List.Sorted, List.pairwise_append]
  refine ⟨hs, List.pairwise_singleton _ _, ?_⟩
  intro a ha c hc
  rw [List.mem_singleton] at hc
  subst hc
  exact hb a ha

/-- The bridge for the vertex-constrained oracle: has_fset_with_last agrees
with the existence of an f-set containing the last vertex. -/
theorem has_fset_with_last_true_iff (f : Pred) (b : Int) (g : Graph) :
    has_fset_with_last f b g = true ↔ HasFsetWithLast f b g := by
  unfold has_fset_with_last HasFsetWithLast
  split
  · rename_i hlt
    simp only [Bool.false_eq_true, false_iff, not_exists]
    rintro s ⟨hs, hbnd, hlen, hmem, hf⟩
    have : 0 < s.length := List.length_pos.mpr (List.ne_nil_of_mem hmem)
    omega
  · rename_i hge
    dsimp only
    split
    · rename_i hbig
      simp only [Bool.false_eq_true, false_iff, not_exists]
      rintro s ⟨hs, hbnd, hlen, hmem, hf⟩
      have := (sorted_sublist_range hs hbnd).length_le
      simp only [List.length_range] at this
      omega
    · rename_i hsm
      have hn : 1 ≤ g.length := by omega
      simp only [List.any_eq_true]
      constructor
      · rintro ⟨ss, hmem, hf⟩
        obtain ⟨hlen, hsub⟩ := (mem_combinations_iff _ _ _).mp hmem
        obtain ⟨hsort, hbnd⟩ := sublist_range_sorted hsub
        refine ⟨ss ++ [g.length - 1], sorted_append_singleton hsort hbnd, ?_, ?_, ?_, hf⟩
        · intro x hx
          rcases List.mem_append.mp hx with hx | hx
          · have := hbnd x hx; omega
          · rw [List.mem_singleton] at hx; omega
        · rw [List.length_append]
          simp only [List.length_singleton]
          omega
        · simp
      · rintro ⟨s, hsort, hbnd, hlen, hmem, hf⟩
        have hsplit : s = (s.filter fun x => decide (x < g.length - 1)) ++ [g.length - 1] := by
          have hperm := List.filter_append_perm (fun x => decide (x < g.length - 1)) s
          have hone : (s.filter fun x => !decide (x < g.length - 1)) = [g.length - 1] := by
            apply eq_singleton_of_forall_eq (hsort.nodup.filter _)
            · intro x hx
              rw [List.mem_filter] at hx
              have := hbnd x hx.1
              have h2 := hx.2
              simp only [Bool.not_eq_eq_eq_not, Bool.not_true, decide_eq_false_iff_not,
                not_lt] at h2
              omega
            · rw [List.mem_filter]
              refine ⟨hmem, by simp⟩
          rw [hone] at hperm
          apply List.eq_of_perm_of_sorted (r := (· < ·)) hperm.symm hsort
          apply sorted_append_singleton (List.Pairwise.filter _ hsort)
          intro x hx
          rw [List.mem_filter] at hx
          simpa using hx.2
        refine ⟨s.filter fun x => decide (x < g.length - 1), ?_, ?_⟩
        · rw [mem_combinations_iff]
          constructor
          · have : s.length = (s.filter fun x => decide (x < g.length - 1)).length + 1 := by
              conv_lhs => rw [hsplit]
              simp
            omega
          · apply sorted_sublist_range (List.Pairwise.filter _ hsort)
            intro x hx
            rw [List.mem_filter] at hx
            simpa using hx.2
        · rw [← hsplit]
          exact hf

/-- The combinations of a strictly ascending list are enumerated in strictly
increasing lexicographic order. -/
theorem combinations_pairwise_lex (b : Nat) (l : List Nat) (hl : l.Pairwise (· < ·)) :
    (combinations b l).Pairwise (List.Lex (· < ·)) := by
  induction l generalizing b with
  | nil => cases b <;> simp [combinations]
  | cons x xs ih =>
    have hx : ∀ y ∈ xs, x < y := (List.pairwise_cons.mp hl).1
    have hxs : xs.Pairwise (· < ·) := (List.pairwise_cons.mp hl).2
    cases b with
    | zero => simp [combinations]
    | succ b =>
      simp only [combinations]
      rw [List.pairwise_append]
      refine ⟨?_, ih _ hxs, ?_⟩
      · rw [List.pairwise_map]
        exact (ih b hxs).imp fun h => List.Lex.cons h
      · intro a ha t ht
        simp only [List.mem_map] at ha
        obtain ⟨sa, _, rfl⟩ := ha
        obtain ⟨hlen, hsub⟩ := (mem_combinations_iff _ _ _).mp ht
        cases t with
        | nil => simp at hlen
        | cons y t' => exact List.Lex.rel (hx y (hsub.subset (by simp)))

/-- C4: has_fset returns false for b < 0 and for b exceeding the order, and
otherwise decides the existence of a size-b ascending vertex subset
satisfying f, the candidate subsets being enumerated in (strictly
increasing) lexicographic order. -/
theorem c4_has_fset_contract (f : Pred) (b : Int) (g : Graph) :
    (b < 0 → has_fset f b g = false) ∧
    ((g.length : Int) < b → has_fset f b g = false) ∧
    (has_fset f b g = true ↔ HasFset f b g) ∧
    (combinations b.toNat (List.range g.length)).Pairwise (List.Lex (· < ·)) := by
  refine ⟨?_, ?_, has_fset_true_iff f b g,
    combinations_pairwise_lex _ _ (List.pairwise_lt_range _)⟩
  · intro h; unfold has_fset; rw [if_pos h]
  · intro h; unfold has_fset
    split
    · rfl
    · dsimp only; rw [if_pos h]

theorem c4_has_fset_contract_witness :
    has_fset (fun _ _ => true) (-1) [[]] = false ∧
      (has_fset (fun _ _ => true) 1 [[]] = true ↔ HasFset (fun _ _ => true) 1 [[]]) :=
  ⟨(c4_has_fset_contract (fun _ _ => true) (-1) [[]]).1 (by decide),
   (c4_has_fset_contract (fun _ _ => true) 1 [[]]).2.2.1⟩

/-- C5: has_fset_with_last returns false for b < 1 and for b exceeding the
order, and otherwise decides the existence of a size-b ascending vertex
subset containing the last vertex n-1 and satisfying f. -/
theorem c5_has_fset_with_last_contract (f : Pred) (b : Int) (g : Graph) :
    (b < 1 → has_fset_with_last f b g = false) ∧
    ((g.length : Int) < b → has_fset_with_last f b g = false) ∧
    (has_fset_with_last f b g = true ↔ HasFsetWithLast f b g) := by
  refine ⟨?_, ?_, has_fset_with_last_true_iff f b g⟩
  · intro h; unfold has_fset_with_last; rw [if_pos h]
  · intro h; unfold has_fset_with_last
    split
    · rfl
    · dsimp only; rw [if_pos h]

theorem c5_has_fset_with_last_contract_witness :
    has_fset_with_last (fun _ _ => true) 0 [[]] = false ∧
      has_fset_with_last (fun _ _ => true) 2 [[]] = false ∧
      (has_fset_with_last (fun _ _ => true) 1 [[]] = true ↔
        HasFsetWithLast (fun _ _ => true) 1 [[]]) :=
  ⟨(c5_has_fset_with_last_contract (fun _ _ => true) 0 [[]]).1 (by decide),
   (c5_has_fset_with_last_contract (fun _ _ => true) 2 [[]]).2.1 (by decide),
   (c5_has_fset_with_last_contract (fun _ _ => true) 1 [[]]).2.2⟩

/-- C9: the parameter assertions of dividedramsey.find_extremals,
make_k_divided_func, make_k_divided_compl_func and
sparseramsey.find_extremals fire exactly on out-of-domain parameters, before
any search begins; under valid parameters none of them fires. -/
theorem c9_assert_fail_fast (fuel : Nat) (k a b : Int) :
    (dividedramsey.find_extremals fuel k a b = none ↔ (k < 1 ∨ a < 0 ∨ b < 0)) ∧
    (make_k_divided_func k = none ↔ k < 1) ∧
    (make_k_divided_compl_func k = none ↔ k < 1) ∧
    (sparseramsey.find_extremals fuel k a b = none ↔ (k < 0 ∨ a < 0 ∨ b < 0)) := by
  refine ⟨?_, ?_, ?_, ?_⟩
  · unfold dividedramsey.find_extremals
    split_ifs with h1 h2 h3
    · simp [h1]
    · simp [h2]
    · simp [h3]
    · rw [make_k_divided_func, make_k_divided_compl_func, if_pos (by omega), if_pos (by omega)]
      simp only [reduceCtorEq, false_iff]
      omega
  · unfold make_k_divided_func
    split_ifs with h1
    · simp only [reduceCtorEq, false_iff]; omega
    · simp only [true_iff]; omega
  · unfold make_k_divided_compl_func
    split_ifs with h1
    · simp only [reduceCtorEq, false_iff]; omega
    · simp only [true_iff]; omega
  · unfold sparseramsey.find_extremals
    split_ifs with h1 h2 h3
    · simp [h1]
    · simp [h2]
    · simp [h3]
    · simp only [reduceCtorEq, false_iff]
      omega

/-
Unbounded consequences of the ValidGraph invariant.
-/

theorem adj_lt_of_valid {g : Graph} (hg : ValidGraph g) {u v : Nat} (h : Adj g u v) :
    u < g.length ∧ v < g.length := by
  by_cases hu : u < g.length
  · refine ⟨hu, ?_⟩
    have hmem : g.getD u [] ∈ g := by
      rw [List.getD_eq_getElem _ _ hu]
      exact List.getElem_mem _
    exact hg.1 _ hmem v h
  · exfalso
    unfold Adj at h
    rw [List.getD_eq_default _ _ (by omega)] at h
    simp at h

theorem adj_symm_of_valid {g : Graph} (hg : ValidGraph g) {u v : Nat} (h : Adj g u v) :
    Adj g v u := by
  obtain ⟨hu, hv⟩ := adj_lt_of_valid hg h
  exact hg.2.1 u hu v hv h

theorem adj_irrefl_of_valid {g : Graph} (hg : ValidGraph g) (u : Nat) : ¬ Adj g u u := by
  intro h
  exact hg.2.2.1 u (adj_lt_of_valid hg h).1 h

theorem adjlist_sorted_of_valid {g : Graph} (hg : ValidGraph g) (u : Nat) :
    (g.getD u []).Sorted (· < ·) := by
  by_cases hu : u < g.length
  · have hmem : g.getD u [] ∈ g := by
      rw [List.getD_eq_getElem _ _ hu]
      exact List.getElem_mem _
    exact hg.2.2.2 _ hmem
  · rw [List.getD_eq_default _ _ (by omega)]
    simp

theorem adjlist_nodup_of_valid {g : Graph} (hg : ValidGraph g) (u : Nat) :
    (g.getD u []).Nodup :=
  (adjlist_sorted_of_valid hg u).nodup

/-
Correctness of the k-sparse predicates (claims C6 and the sparse half of C7).
-/

theorem sparseInner_true_iff (k : Int) (s : List Nat) (xs : List Nat) (d : Nat) :
    sparseInner k s xs d = true ↔
      (xs.countP (fun x => decide (x ∈ s)) = 0 ∨
        ((d : Int) + xs.countP (fun x => decide (x ∈ s)) ≤ k)) := by
  induction xs generalizing d with
  | nil => simp [sparseInner]
  | cons x xs ih =>
    rw [List.countP_cons]
    cases hpc : decide (x ∈ s) with
    | false =>
      rw [if_neg (by simp [hpc]), Nat.add_zero]
      have hunf : sparseInner k s (x :: xs) d = sparseInner k s xs d := by
        simp only [sparseInner]
        rw [if_neg (by simp [hpc])]
      rw [hunf]
      exact ih d
    | true =>
      rw [if_pos rfl]
      have hunf : sparseInner k s (x :: xs) d =
          if k < ((d + 1 : Nat) : Int) then false else sparseInner k s xs (d + 1) := by
        simp only [sparseInner]
        rw [if_pos hpc]
      rw [hunf]
      split
      · rename_i hk
        constructor
        · intro h; exact absurd h (by simp)
        · rintro (h | h)
          · exact absurd h (by omega)
          · exact absurd h (by omega)
      · rename_i hk
        rw [ih]
        constructor
        · rintro (h | h) <;> (right; omega)
        · rintro (h | h)
          · exact absurd h (by omega)
          · right; omega

theorem sparseComplInner_true_iff (k : Int) (g : Graph) (v : Nat) (xs : List Nat) (d : Nat) :
    sparseComplInner k g v xs d = true ↔
      (xs.countP (fun x => !decide (x = v) && !decide (x ∈ g.getD v [])) = 0 ∨
        ((d : Int) + xs.countP (fun x => !decide (x = v) && !decide (x ∈ g.getD v [])) ≤ k)) := by
  induction xs generalizing d with
  | nil => simp [sparseComplInner]
  | cons x xs ih =>
    rw [List.countP_cons]
    cases hpc : (!decide (x = v) && !decide (x ∈ g.getD v [])) with
    | false =>
      rw [if_neg (by simp), Nat.add_zero]
      have hunf : sparseComplInner k g v (x :: xs) d = sparseComplInner k g v xs d := by
        simp only [sparseComplInner]
        rw [if_neg (by rw [hpc]; simp)]
      rw [hunf]
      exact ih d
    | true =>
      rw [if_pos rfl]
      have hunf : sparseComplInner k g v (x :: xs) d =
          if k < ((d + 1 : Nat) : Int) then false else sparseComplInner k g v xs (d + 1) := by
        simp only [sparseComplInner]
        rw [if_pos hpc]
      rw [hunf]
      split
      · rename_i hk
        constructor
        · intro h; exact absurd h (by simp)
        · rintro (h | h)
          · exact absurd h (by omega)
          · exact absurd h (by omega)
      · rename_i hk
        rw [ih]
        constructor
        · rintro (h | h) <;> (right; omega)
        · rintro (h | h)
          · exact absurd h (by omega)
          · right; omega

theorem count_nbrs_eq_ncard {g : Graph} (hg : ValidGraph g) (s : List Nat) (v : Nat) :
    (g.getD v []).countP (fun x => decide (x ∈ s)) =
      Set.ncard {u | u ∈ s ∧ Adj g v u} := by
  have hset : {u | u ∈ s ∧ Adj g v u} =
      ↑(((g.getD v []).filter (fun x => decide (x ∈ s))).toFinset) := by
    ext u
    simp only [Set.mem_setOf_eq, List.coe_toFinset, List.mem_filter, decide_eq_true_eq]
    unfold Adj
    tauto
  rw [hset, Set.ncard_coe_Finset,
    List.toFinset_card_of_nodup ((adjlist_nodup_of_valid hg v).filter _),
    List.countP_eq_length_filter]

/-- C6: the k-sparse predicate returned by make_k_sparse_func holds on (g, s)
iff every vertex of s has at most k neighbours inside s, i.e. the maximum
degree of the subgraph induced by s is at most k. -/
theorem c6_make_k_sparse_correct (k : Int) (g : Graph) (s : List Nat)
    (hk : 0 ≤ k) (hg : ValidGraph g) (hs : s.Sorted (· < ·))
    (hbnd : ∀ x ∈ s, x < g.length) :
    make_k_sparse_func k g s = true ↔
      ∀ v ∈ s, (Set.ncard {u | u ∈ s ∧ Adj g v u} : Int) ≤ k := by
  unfold make_k_sparse_func is_k_sparse
  rw [List.all_eq_true]
  constructor
  · intro h v hv
    have hh := (sparseInner_true_iff k s (g.getD v []) 0).mp (by simpa using h v hv)
    rw [← count_nbrs_eq_ncard hg s v]
    rcases hh with h0 | hle
    · rw [h0]; exact_mod_cast hk
    · simpa using hle
  · intro h v hv
    refine (sparseInner_true_iff k s (g.getD v []) 0).mpr (Or.inr ?_)
    have := h v hv
    rw [← count_nbrs_eq_ncard hg s v] at this
    push_cast
    omega

theorem c6_make_k_sparse_correct_witness :
    (0 : Int) ≤ 1 ∧ ValidGraph [[1], [0, 2], [1, 3], [2, 4], [3]] ∧
      (make_k_sparse_func 1 [[1], [0, 2], [1, 3], [2, 4], [3]] [0, 1, 3, 4] = true ↔
        ∀ v ∈ [0, 1, 3, 4],
          (Set.ncard {u | u ∈ [0, 1, 3, 4] ∧ Adj [[1], [0, 2], [1, 3], [2, 4], [3]] v u} : Int) ≤ 1) :=
  ⟨by decide, by decide,
   c6_make_k_sparse_correct 1 [[1], [0, 2], [1, 3], [2, 4], [3]] [0, 1, 3, 4]
     (by decide) (by decide) (by decide) (by decide)⟩

/-
The prefix-induced subgraph, and the consequences of the induced-hereditary
property used by the engine (claim C2).
-/

theorem pre_length (g : Graph) (m : Nat) : (pre g m).length = min m g.length := by
  simp [pre]

theorem pre_adj (g : Graph) (m : Nat) (u v : Nat) :
    Adj (pre g m) u v ↔ u < m ∧ v < m ∧ Adj g u v := by
  unfold Adj pre
  by_cases hu : u < m ∧ u < g.length
  · rw [List.getD_eq_getElem _ _ (by simp; omega)]
    rw [List.getElem_map, List.getElem_take]
    rw [List.mem_filter]
    have : g[u] = g.getD u [] := (List.getD_eq_getElem _ _ hu.2).symm
    rw [this]
    simp only [decide_eq_true_eq]
    constructor
    · rintro ⟨h1, h2⟩; exact ⟨hu.1, h2, h1⟩
    · rintro ⟨_, h2, h3⟩; exact ⟨h3, h2⟩
  · rw [List.getD_eq_default _ _ (by simp; omega)]
    simp only [List.not_mem_nil, false_iff, not_and]
    intro h1 h2 h3
    apply hu
    refine ⟨h1, ?_⟩
    by_contra hlen
    rw [List.getD_eq_default _ _ (by omega)] at h3
    simp at h3

theorem sortMap_id {s : List Nat} (hs : s.Sorted (· < ·)) : sortMap id s = s := by
  unfold sortMap
  rw [List.map_id]
  have hanti : IsAntisymm Nat (· ≤ ·) := ⟨fun _ _ h1 h2 => le_antisymm h1 h2⟩
  apply List.eq_of_perm_of_sorted (r := (· ≤ ·)) (List.perm_insertionSort _ s)
  · exact List.sorted_insertionSort _ s
  · exact hs.imp le_of_lt

/-- An induced-hereditary predicate is unchanged when passing from a graph to
the subgraph induced by a prefix of its vertex range. -/
theorem hereditary_pre {f : Pred} (hf : InducedHereditary f) (g : Graph) (m : Nat)
    (hm : m ≤ g.length) {s : List Nat} (hs : s.Sorted (· < ·))
    (hbnd : ∀ x ∈ s, x < m) : f (pre g m) s = f g s := by
  have hlen : (pre g m).length = m := by rw [pre_length]; omega
  have hemb : IndEmbed (pre g m) g id := by
    refine ⟨?_, ?_, ?_⟩
    · intro u hu; rw [hlen] at hu; show u < g.length; omega
    · intro u v _ _ h; exact h
    · intro u v hu hv
      rw [hlen] at hu hv
      rw [pre_adj]
      simp [hu, hv]
  have := hf (pre g m) g id hemb s hs (by intro x hx; rw [hlen]; exact hbnd x hx)
  rwa [sortMap_id hs] at this

/-- A vertex-constrained f-set is in particular an f-set. -/
theorem with_last_imp_has_fset (f : Pred) (b : Int) (g : Graph)
    (h : has_fset_with_last f b g = true) : has_fset f b g = true := by
  obtain ⟨s, hsort, hbnd, hlen, _, hf⟩ := (has_fset_with_last_true_iff f b g).mp h
  exact (has_fset_true_iff f b g).mpr ⟨s, hsort, hbnd, hlen, hf⟩

/-- For an induced-hereditary predicate, when the prefix-induced subgraph on
the first n-1 vertices has no order-b f-set, the full oracle and the
vertex-constrained oracle agree. -/
theorem has_fset_eq_with_last {f : Pred} {b : Int} {g : Graph}
    (hf : InducedHereditary f) (hn : 1 ≤ g.length)
    (hp : has_fset f b (pre g (g.length - 1)) = false) :
    has_fset f b g = has_fset_with_last f b g := by
  rw [Bool.eq_iff_iff]
  constructor
  · intro h
    obtain ⟨s, hsort, hbnd, hlen, hfs⟩ := (has_fset_true_iff f b g).mp h
    by_cases hmem : (g.length - 1) ∈ s
    · exact (has_fset_with_last_true_iff f b g).mpr ⟨s, hsort, hbnd, hlen, hmem, hfs⟩
    · exfalso
      have hbnd' : ∀ x ∈ s, x < g.length - 1 := by
        intro x hx
        have h1 := hbnd x hx
        rcases Nat.lt_or_ge x (g.length - 1) with h2 | h2
        · exact h2
        · exfalso; apply hmem
          have : x = g.length - 1 := by omega
          rwa [this] at hx
      have heq := hereditary_pre hf g (g.length - 1) (by omega) hsort hbnd'
      have : HasFset f b (pre g (g.length - 1)) := by
        refine ⟨s, hsort, ?_, hlen, by rw [heq]; exact hfs⟩
        intro x hx
        rw [pre_length]
        have := hbnd' x hx
        omega
      rw [← has_fset_true_iff] at this
      rw [this] at hp
      simp at hp
  · exact with_last_imp_has_fset f b g

/-- C2: a vertex-constrained f-set is in particular an f-set; and for an
induced-hereditary predicate, when the prefix-induced subgraph on the first
n-1 vertices has no order-b f-set, the full oracle and the vertex-constrained
oracle agree on the extended graph. -/
theorem c2_with_last_subset_and_equiv :
    (∀ (f : Pred) (b : Int) (g : Graph),
      has_fset_with_last f b g = true → has_fset f b g = true) ∧
    (∀ (f : Pred) (b : Int) (g : Graph), InducedHereditary f → 1 ≤ g.length →
      has_fset f b (pre g (g.length - 1)) = false →
      has_fset f b g = has_fset_with_last f b g) :=
  ⟨with_last_imp_has_fset, fun _ _ _ hf hn hp => has_fset_eq_with_last hf hn hp⟩

theorem c2_with_last_subset_and_equiv_witness :
    has_fset is_clique 2 [[3], [3], [3], [0, 1, 2]] = true ∧
      has_fset (fun _ _ => false) 0 [[]] = has_fset_with_last (fun _ _ => false) 0 [[]] :=
  ⟨c2_with_last_subset_and_equiv.1 is_clique 2 [[3], [3], [3], [0, 1, 2]] (by decide),
   c2_with_last_subset_and_equiv.2 (fun _ _ => false) 0 [[]]
     (fun _ _ _ _ _ _ _ => rfl) (by decide) (by decide)⟩

/-
Correctness of the k-divided search loop (claim C3 and the divided half of
C7). The proof is generic over the abstract adjacency test, so that it can
be instantiated both for is_k_divided and for is_k_divided_compl.
-/

theorem getD_set_self {p : List Bool} {y : Nat} (h : y < p.length) :
    (p.set y true).getD y false = true := by
  rw [List.getD_eq_getElem?_getD, List.getElem?_set]
  simp [h]

theorem getD_set_other {p : List Bool} {y i : Nat} (h : y ≠ i) :
    (p.set y true).getD i false = p.getD i false := by
  rw [List.getD_eq_getElem?_getD, List.getElem?_set, if_neg h, ← List.getD_eq_getElem?_getD]

theorem mem_pushedF {p : List Bool} {i : Nat} :
    i ∈ pushedF p ↔ i < p.length ∧ p.getD i false = true := by
  simp [pushedF]

theorem pushedF_set {p : List Bool} {y : Nat} (hy : y < p.length) :
    pushedF (p.set y true) = insert y (pushedF p) := by
  ext i
  rw [mem_pushedF, Finset.mem_insert, mem_pushedF, List.length_set]
  by_cases hiy : y = i
  · subst hiy
    simp [hy, getD_set_self hy]
  · rw [getD_set_other hiy]
    constructor
    · rintro ⟨h1, h2⟩; exact Or.inr ⟨h1, h2⟩
    · rintro (rfl | ⟨h1, h2⟩)
      · exact absurd rfl hiy
      · exact ⟨h1, h2⟩

theorem adjRel_symmetric {adjtest : Nat → Nat → Bool} {s : List Nat}
    (Hsym : ∀ a b, a ∈ s → b ∈ s → adjtest a b = adjtest b a) :
    Symmetric (AdjRel adjtest s) := by
  rintro a b ⟨ha, hb, hadj⟩
  exact ⟨hb, ha, by rw [Hsym b a hb ha]; exact hadj⟩

theorem reachT_symm {adjtest : Nat → Nat → Bool} {s : List Nat}
    (Hsym : ∀ a b, a ∈ s → b ∈ s → adjtest a b = adjtest b a)
    {u v : Nat} (h : ReachT adjtest s u v) : ReachT adjtest s v u :=
  Relation.ReflTransGen.symmetric (adjRel_symmetric Hsym) h

/-- Propagate membership in a closed vertex set along a path. -/
theorem mem_closed_of_reach {adjtest : Nat → Nat → Bool} {s : List Nat}
    {P : Finset Nat}
    (HP : ∀ a b, a ∈ s → b ∈ s → adjtest a b = true → a ∈ P → b ∈ P)
    {u v : Nat} (h : ReachT adjtest s u v) (hu : u ∈ P) : v ∈ P := by
  induction h with
  | refl => exact hu
  | tail _ hstep ih => exact HP _ _ hstep.1 hstep.2.1 hstep.2.2 ih

/-- A vertex reachable from a vertex outside a closed set is itself outside
that set. -/
theorem not_mem_P0_of_reach {adjtest : Nat → Nat → Bool} {s : List Nat}
    {P0 : Finset Nat} {v y : Nat}
    (Hsym : ∀ a b, a ∈ s → b ∈ s → adjtest a b = adjtest b a)
    (HP0 : ∀ a b, a ∈ s → b ∈ s → adjtest a b = true → a ∈ P0 → b ∈ P0)
    (hv : v ∉ P0) (hr : ReachT adjtest s v y) : y ∉ P0 := by
  intro hy
  exact hv (mem_closed_of_reach HP0 (reachT_symm Hsym hr) hy)

/-- Vertices of a common component have the same component. -/
theorem componentOf_eq_of_reach {adjtest : Nat → Nat → Bool} {s : List Nat}
    (Hsym : ∀ a b, a ∈ s → b ∈ s → adjtest a b = adjtest b a)
    {u v : Nat} (h : ReachT adjtest s v u) :
    componentOf adjtest s u = componentOf adjtest s v := by
  unfold componentOf
  ext w
  simp only [Set.mem_setOf_eq]
  constructor
  · rintro ⟨hw, hr⟩; exact ⟨hw, h.trans hr⟩
  · rintro ⟨hw, hr⟩; exact ⟨hw, (reachT_symm Hsym h).trans hr⟩

theorem componentOf_finite (adjtest : Nat → Nat → Bool) (s : List Nat) (v : Nat) :
    (componentOf adjtest s v).Finite :=
  (List.finite_toSet s).subset fun _ h => h.1

theorem scanNbrs_spec {adjtest : Nat → Nat → Bool} {s : List Nat} {k : Int}
    {v : Nat} {P0 : Finset Nat}
    (Hsym : ∀ a b, a ∈ s → b ∈ s → adjtest a b = adjtest b a)
    (HP0 : ∀ a b, a ∈ s → b ∈ s → adjtest a b = true → a ∈ P0 → b ∈ P0)
    {x : Nat} (hx : x ∈ s) (hxr : ReachT adjtest s v x) :
    ∀ (ys : List Nat), (∀ y ∈ ys, y ∈ s) →
    ∀ (pushed : List Bool) (stack : List Nat) (cs : Nat),
      DInv adjtest s k v P0 pushed (x :: stack) cs →
      (scanNbrs adjtest k x ys pushed stack cs = .foundBig →
        (k : Int) < ((componentOf adjtest s v).ncard : Int)) ∧
      (∀ pushed' stack' cs',
        scanNbrs adjtest k x ys pushed stack cs = .next pushed' stack' cs' →
        DInv adjtest s k v P0 pushed' (x :: stack') cs' ∧
        pushedF pushed ⊆ pushedF pushed' ∧
        pushed'.length = pushed.length ∧
        (∀ y ∈ ys, adjtest x y = true → y ∈ pushedF pushed')) := by
  intro ys
  induction ys with
  | nil =>
    intro _ pushed stack cs hInv
    constructor
    · intro h
      exact absurd h (by simp [scanNbrs])
    · intro p' st' cs' hnext
      simp only [scanNbrs, ScanRes.next.injEq] at hnext
      obtain ⟨rfl, rfl, rfl⟩ := hnext
      exact ⟨hInv, le_rfl, rfl, by simp⟩
  | cons y ys ih =>
    intro hys pushed stack cs hInv
    have hy : y ∈ s := hys y (by simp)
    have hys' : ∀ z ∈ ys, z ∈ s := fun z hz => hys z (by simp [hz])
    by_cases hskip : (pushed.getD y false || !adjtest x y) = true
    · have hunf : scanNbrs adjtest k x (y :: ys) pushed stack cs =
          scanNbrs adjtest k x ys pushed stack cs := by
        simp only [scanNbrs]
        rw [if_pos hskip]
      rw [hunf]
      obtain ⟨ihFB, ihN⟩ := ih hys' pushed stack cs hInv
      refine ⟨ihFB, ?_⟩
      intro p' st' cs' hnext
      obtain ⟨hDI, hsub, hlen, hscan⟩ := ihN p' st' cs' hnext
      refine ⟨hDI, hsub, hlen, ?_⟩
      intro z hz hadj
      rcases List.mem_cons.mp hz with rfl | hz'
      · have hpz : pushed.getD z false = true := by
          rcases Bool.or_eq_true_iff.mp hskip with h | h
          · exact h
          · rw [hadj] at h; simp at h
        exact hsub (mem_pushedF.mpr ⟨hInv.bnd z hy, hpz⟩)
      · exact hscan z hz' hadj
    · have hyfresh : pushed.getD y false = false := by
        by_contra hcf
        rw [Bool.not_eq_false] at hcf
        exact hskip (by rw [hcf]; simp)
      have hadjxy : adjtest x y = true := by
        by_contra hcf
        rw [Bool.not_eq_true] at hcf
        exact hskip (by rw [hcf]; simp)
      have hylen : y < pushed.length := hInv.bnd y hy
      have hyNotPushed : y ∉ pushedF pushed := by
        rw [mem_pushedF]
        rintro ⟨_, hc⟩
        rw [hyfresh] at hc
        exact Bool.false_ne_true hc
      have hReachy : ReachT adjtest s v y := hxr.tail ⟨hx, hy, hadjxy⟩
      have hyNotP0 : y ∉ P0 := not_mem_P0_of_reach Hsym HP0 hInv.vnotP0 hReachy
      by_cases hbig : k ≤ (cs : Int)
      · have hunf : scanNbrs adjtest k x (y :: ys) pushed stack cs = .foundBig := by
          simp only [scanNbrs]
          rw [if_neg hskip, if_pos hbig]
        rw [hunf]
        constructor
        · intro _
          have hsubset : ↑(insert y (pushedF pushed \ P0)) ⊆ componentOf adjtest s v := by
            intro i hi
            rcases Finset.mem_insert.mp (Finset.mem_coe.mp hi) with rfl | hi2
            · exact ⟨hy, hReachy⟩
            · obtain ⟨hip, hiP0⟩ := Finset.mem_sdiff.mp hi2
              exact hInv.newReach i hip hiP0
          have hcard : (insert y (pushedF pushed \ P0)).card = cs + 1 := by
            rw [Finset.card_insert_of_not_mem
              (fun hc => hyNotPushed (Finset.mem_sdiff.mp hc).1), ← hInv.card_eq]
          have hle := Set.ncard_le_ncard hsubset (componentOf_finite _ _ _)
          rw [Set.ncard_coe_Finset, hcard] at hle
          push_cast
          omega
        · intro p' st' cs' h
          exact absurd h (by simp)
      · have hunf : scanNbrs adjtest k x (y :: ys) pushed stack cs =
            scanNbrs adjtest k x ys (pushed.set y true) (y :: stack) (cs + 1) := by
          simp only [scanNbrs]
          rw [if_neg hskip, if_neg hbig]
        rw [hunf]
        have hpf : pushedF (pushed.set y true) = insert y (pushedF pushed) :=
          pushedF_set hylen
        have hxstack : x ∉ stack := (List.nodup_cons.mp hInv.stackNodup).1
        have hstacknd : stack.Nodup := (List.nodup_cons.mp hInv.stackNodup).2
        have hystack : y ∉ stack :=
          fun hc => hyNotPushed (hInv.stackPush y (List.mem_cons_of_mem _ hc)).1
        have hyx : y ≠ x := fun hc =>
          hyNotPushed (hc ▸ (hInv.stackPush x (by simp)).1)
        have hInv2 : DInv adjtest s k v P0 (pushed.set y true) (x :: y :: stack) (cs + 1) := by
          refine ⟨?_, hInv.vmem, ?_, hInv.vnotP0, ?_, ?_, ?_, ?_, ?_, ?_, ?_⟩
          · intro z hz; rw [List.length_set]; exact hInv.bnd z hz
          · rw [hpf]; exact Finset.mem_insert_of_mem hInv.vpush
          · rw [hpf]; exact hInv.P0sub.trans (Finset.subset_insert _ _)
          · intro i hi hiP0
            rw [hpf, Finset.mem_insert] at hi
            rcases hi with rfl | hi
            · exact ⟨hy, hReachy⟩
            · exact hInv.newReach i hi hiP0
          · rw [hpf]
            have hins : insert y (pushedF pushed) \ P0 = insert y (pushedF pushed \ P0) := by
              ext i
              simp only [Finset.mem_sdiff, Finset.mem_insert]
              constructor
              · rintro ⟨rfl | hi, hp⟩
                · exact Or.inl rfl
                · exact Or.inr ⟨hi, hp⟩
              · rintro (rfl | ⟨hi, hp⟩)
                · exact ⟨Or.inl rfl, hyNotP0⟩
                · exact ⟨Or.inr hi, hp⟩
            rw [hins, Finset.card_insert_of_not_mem
              (fun hc => hyNotPushed (Finset.mem_sdiff.mp hc).1), ← hInv.card_eq]
          · push_cast; omega
          · intro z hz
            rcases List.mem_cons.mp hz with rfl | hz
            · obtain ⟨h1, h2⟩ := hInv.stackPush z (by simp)
              exact ⟨by rw [hpf]; exact Finset.mem_insert_of_mem h1, h2⟩
            · rcases List.mem_cons.mp hz with rfl | hz
              · exact ⟨by rw [hpf]; exact Finset.mem_insert_self _ _, hyNotP0⟩
              · obtain ⟨h1, h2⟩ := hInv.stackPush z (List.mem_cons_of_mem _ hz)
                exact ⟨by rw [hpf]; exact Finset.mem_insert_of_mem h1, h2⟩
          · rw [List.nodup_cons, List.nodup_cons]
            refine ⟨?_, hystack, hstacknd⟩
            intro hc
            rcases List.mem_cons.mp hc with rfl | hc
            · exact hyx rfl
            · exact hxstack hc
          · intro x'' hx'' hx''P0 hx''stack z hz hadj
            rw [hpf] at hx'' ⊢
            rcases Finset.mem_insert.mp hx'' with rfl | hx''
            · exact absurd (by simp) hx''stack
            · have hnot : x'' ∉ x :: stack := by
                intro hc
                rcases List.mem_cons.mp hc with rfl | hc
                · exact hx''stack (by simp)
                · exact hx''stack (by simp [hc])
              exact Finset.mem_insert_of_mem
                (hInv.procClosed x'' hx'' hx''P0 hnot z hz hadj)
        obtain ⟨ihFB, ihN⟩ := ih hys' (pushed.set y true) (y :: stack) (cs + 1) hInv2
        refine ⟨ihFB, ?_⟩
        intro p' st' cs' hnext
        obtain ⟨hDI, hsub, hlen, hscan⟩ := ihN p' st' cs' hnext
        refine ⟨hDI, ?_, ?_, ?_⟩
        · refine Finset.Subset.trans ?_ hsub
          rw [hpf]
          exact Finset.subset_insert _ _
        · rw [hlen, List.length_set]
        · intro z hz hadj
          rcases List.mem_cons.mp hz with rfl | hz'
          · exact hsub (by rw [hpf]; exact Finset.mem_insert_self _ _)
          · exact hscan z hz' hadj

theorem dfsLoop_cons_next (adjtest : Nat → Nat → Bool) (k : Int) (s : List Nat) (x : Nat)
    (stack : List Nat) (pushed p2 : List Bool) (cs : Nat) (st2 : List Nat) (cs2 : Nat)
    (hscan : scanNbrs adjtest k x s pushed stack cs = .next p2 st2 cs2) :
    dfsLoop adjtest k s (x :: stack) pushed cs = dfsLoop adjtest k s st2 p2 cs2 := by
  rw [dfsLoop.eq_2]
  split
  · rename_i heq; rw [heq] at hscan; exact absurd hscan (by simp)
  · rename_i p3 st3 cs3 heq
    rw [heq] at hscan
    simp only [ScanRes.next.injEq] at hscan
    obtain ⟨rfl, rfl, rfl⟩ := hscan
    rfl

theorem dfsLoop_cons_big (adjtest : Nat → Nat → Bool) (k : Int) (s : List Nat) (x : Nat)
    (stack : List Nat) (pushed : List Bool) (cs : Nat)
    (hscan : scanNbrs adjtest k x s pushed stack cs = .foundBig) :
    dfsLoop adjtest k s (x :: stack) pushed cs = .foundBig := by
  rw [dfsLoop.eq_2]
  split
  · rfl
  · rename_i p3 st3 cs3 heq
    rw [heq] at hscan
    exact absurd hscan (by simp)

theorem dfsLoop_spec {adjtest : Nat → Nat → Bool} {s : List Nat} {k : Int}
    {v : Nat} {P0 : Finset Nat}
    (Hsym : ∀ a b, a ∈ s → b ∈ s → adjtest a b = adjtest b a)
    (HP0 : ∀ a b, a ∈ s → b ∈ s → adjtest a b = true → a ∈ P0 → b ∈ P0) :
    ∀ (stack : List Nat) (pushed : List Bool) (cs : Nat),
      DInv adjtest s k v P0 pushed stack cs →
      (dfsLoop adjtest k s stack pushed cs = .foundBig →
        (k : Int) < ((componentOf adjtest s v).ncard : Int)) ∧
      (∀ p', dfsLoop adjtest k s stack pushed cs = .done p' →
        ↑(pushedF p') = ↑P0 ∪ componentOf adjtest s v ∧
        ((componentOf adjtest s v).ncard : Int) ≤ k ∧
        p'.length = pushed.length) := by
  intro stack pushed cs
  induction stack, pushed, cs using dfsLoop.induct adjtest k s with
  | case1 pushed cs =>
    intro hInv
    constructor
    · intro h
      rw [dfsLoop.eq_1] at h
      exact absurd h (by simp)
    · intro p' hdone
      rw [dfsLoop.eq_1] at hdone
      simp only [DfsRes.done.injEq] at hdone
      obtain rfl := hdone
      have hcompsub : componentOf adjtest s v ⊆ ↑(pushedF pushed) := by
        rintro u ⟨hus, hr⟩
        clear hus
        induction hr with
        | refl => exact hInv.vpush
        | @tail b c hr' hstep ih =>
          have hbP0 : b ∉ P0 := not_mem_P0_of_reach Hsym HP0 hInv.vnotP0 hr'
          exact hInv.procClosed b ih hbP0 (by simp) c hstep.2.1 hstep.2.2
      have hnewEq : componentOf adjtest s v = ↑(pushedF pushed \ P0) := by
        ext u
        constructor
        · intro hu
          rw [Finset.coe_sdiff, Set.mem_diff]
          refine ⟨hcompsub hu, ?_⟩
          exact not_mem_P0_of_reach Hsym HP0 hInv.vnotP0 hu.2
        · intro hu
          rw [Finset.coe_sdiff, Set.mem_diff] at hu
          exact hInv.newReach u hu.1 hu.2
      refine ⟨?_, ?_, rfl⟩
      · ext i
        simp only [Finset.coe_filter, Set.mem_union, Finset.mem_coe]
        constructor
        · intro hi
          by_cases hiP0 : i ∈ P0
          · exact Or.inl hiP0
          · exact Or.inr (hInv.newReach i hi hiP0)
        · rintro (hi | hi)
          · exact hInv.P0sub hi
          · exact hcompsub hi
      · rw [hnewEq, Set.ncard_coe_Finset, ← hInv.card_eq]
        exact hInv.cs_le
  | case2 x stack pushed cs hscan =>
    intro hInv
    obtain ⟨hxp, hxP0⟩ := hInv.stackPush x (by simp)
    obtain ⟨hxs, hxr⟩ := hInv.newReach x hxp hxP0
    have hbound := (scanNbrs_spec Hsym HP0 hxs hxr s (fun y hy => hy)
      pushed stack cs hInv).1 hscan
    exact ⟨fun _ => hbound, fun p' hdone => by
      rw [dfsLoop_cons_big adjtest k s x stack pushed cs hscan] at hdone
      exact absurd hdone (by simp)⟩
  | case3 x stack pushed cs p2 st2 cs2 hscan ih =>
    intro hInv
    obtain ⟨hxp, hxP0⟩ := hInv.stackPush x (by simp)
    obtain ⟨hxs, hxr⟩ := hInv.newReach x hxp hxP0
    obtain ⟨hDI2, hsub2, hlen2, hscanned⟩ := (scanNbrs_spec Hsym HP0 hxs hxr s
      (fun y hy => hy) pushed stack cs hInv).2 p2 st2 cs2 hscan
    have hDI3 : DInv adjtest s k v P0 p2 st2 cs2 := by
      refine ⟨hDI2.bnd, hDI2.vmem, hDI2.vpush, hDI2.vnotP0, hDI2.P0sub, hDI2.newReach,
        hDI2.card_eq, hDI2.cs_le, ?_, ?_, ?_⟩
      · intro z hz
        exact hDI2.stackPush z (List.mem_cons_of_mem _ hz)
      · exact (List.nodup_cons.mp hDI2.stackNodup).2
      · intro x'' hx'' hx''P0 hx''st z hz hadj
        by_cases hxeq : x'' = x
        · subst hxeq
          exact hscanned z hz hadj
        · have : x'' ∉ x :: st2 := by
            intro hc
            rcases List.mem_cons.mp hc with h | h
            · exact hxeq h
            · exact hx''st h
          exact hDI2.procClosed x'' hx'' hx''P0 this z hz hadj
    obtain ⟨ihFB, ihD⟩ := ih hDI3
    rw [dfsLoop_cons_next adjtest k s x stack pushed p2 cs st2 cs2 hscan]
    refine ⟨ihFB, ?_⟩
    intro p' hdone
    obtain ⟨h1, h2, h3⟩ := ihD p' hdone
    exact ⟨h1, h2, by rw [h3, hlen2]⟩

theorem divLoop_spec {adjtest : Nat → Nat → Bool} {s : List Nat} {k : Int}
    (Hsym : ∀ a b, a ∈ s → b ∈ s → adjtest a b = adjtest b a) (hk : 1 ≤ k) :
    ∀ (vs : List Nat), (∀ z ∈ vs, z ∈ s) →
    ∀ (pushed : List Bool), OInv adjtest s k pushed →
      (divLoop adjtest k s vs pushed = true ↔
        ∀ z ∈ vs, ((componentOf adjtest s z).ncard : Int) ≤ k) := by
  intro vs
  induction vs with
  | nil =>
    intro _ pushed _
    simp [divLoop]
  | cons v vs ih =>
    intro hvs pushed hO
    have hv : v ∈ s := hvs v (by simp)
    have hvs' : ∀ z ∈ vs, z ∈ s := fun z hz => hvs z (by simp [hz])
    by_cases hvp : pushed.getD v false = true
    · have hunf : divLoop adjtest k s (v :: vs) pushed = divLoop adjtest k s vs pushed := by
        simp only [divLoop]
        rw [if_pos hvp]
      rw [hunf, ih hvs' pushed hO]
      have hsmall := (hO.small v (mem_pushedF.mpr ⟨hO.bnd v hv, hvp⟩)).2
      constructor
      · intro h z hz
        rcases List.mem_cons.mp hz with rfl | hz
        · exact hsmall
        · exact h z hz
      · intro h z hz
        exact h z (List.mem_cons_of_mem _ hz)
    · have hvfresh : pushed.getD v false = false := by
        cases h : pushed.getD v false
        · rfl
        · exact absurd h hvp
      have hvlen : v < pushed.length := hO.bnd v hv
      have hvNotPushed : v ∉ pushedF pushed := fun hc => hvp (mem_pushedF.mp hc).2
      have hpf : pushedF (pushed.set v true) = insert v (pushedF pushed) :=
        pushedF_set hvlen
      have hInv : DInv adjtest s k v (pushedF pushed) (pushed.set v true) [v] 1 := by
        refine ⟨?_, hv, ?_, hvNotPushed, ?_, ?_, ?_, ?_, ?_, ?_, ?_⟩
        · intro z hz; rw [List.length_set]; exact hO.bnd z hz
        · rw [hpf]; exact Finset.mem_insert_self _ _
        · rw [hpf]; exact Finset.subset_insert _ _
        · intro i hi hiP0
          rw [hpf, Finset.mem_insert] at hi
          rcases hi with rfl | hi
          · exact ⟨hv, Relation.ReflTransGen.refl⟩
          · exact absurd hi hiP0
        · rw [hpf]
          have hsingle : insert v (pushedF pushed) \ pushedF pushed = {v} := by
            ext i
            simp only [Finset.mem_sdiff, Finset.mem_insert, Finset.mem_singleton]
            constructor
            · rintro ⟨rfl | hi, hnp⟩
              · rfl
              · exact absurd hi hnp
            · rintro rfl
              exact ⟨Or.inl rfl, hvNotPushed⟩
          rw [hsingle, Finset.card_singleton]
        · exact_mod_cast hk
        · intro z hz
          rw [List.mem_singleton] at hz
          subst hz
          exact ⟨by rw [hpf]; exact Finset.mem_insert_self _ _, hvNotPushed⟩
        · simp
        · intro x'' hx'' hP0 hst z hz hadj
          rw [hpf, Finset.mem_insert] at hx''
          rcases hx'' with rfl | hx''
          · exact absurd (by simp) hst
          · exact absurd hx'' hP0
      obtain ⟨hFB, hDone⟩ := dfsLoop_spec Hsym hO.closed [v] (pushed.set v true) 1 hInv
      cases hres : dfsLoop adjtest k s [v] (pushed.set v true) 1 with
      | foundBig =>
        have hbig := hFB hres
        have hunf : divLoop adjtest k s (v :: vs) pushed = false := by
          simp only [divLoop]
          rw [if_neg (by rw [hvfresh]; simp), hres]
        rw [hunf]
        constructor
        · intro h
          exact absurd h (by simp)
        · intro h
          exfalso
          have := h v (by simp)
          omega
      | done p' =>
        obtain ⟨hEq, hSmall, hLen⟩ := hDone p' hres
        have hO' : OInv adjtest s k p' := by
          refine ⟨?_, ?_, ?_⟩
          · intro z hz
            rw [hLen, List.length_set]
            exact hO.bnd z hz
          · intro a b ha hb hadj hap
            have hap' : (a : Nat) ∈ (↑(pushedF pushed) : Set Nat) ∪ componentOf adjtest s v := by
              rw [← hEq]
              exact Finset.mem_coe.mpr hap
            have hgoal : (b : Nat) ∈ (↑(pushedF pushed) : Set Nat) ∪ componentOf adjtest s v → b ∈ pushedF p' := by
              intro hbb
              rw [← hEq] at hbb
              exact Finset.mem_coe.mp hbb
            rcases hap' with hap' | hap'
            · exact hgoal (Or.inl (Finset.mem_coe.mpr
                (hO.closed a b ha hb hadj (Finset.mem_coe.mp hap'))))
            · exact hgoal (Or.inr ⟨hb, hap'.2.tail ⟨ha, hb, hadj⟩⟩)
          · intro u hu
            have hu' : (u : Nat) ∈ (↑(pushedF pushed) : Set Nat) ∪ componentOf adjtest s v := by
              rw [← hEq]
              exact Finset.mem_coe.mpr hu
            rcases hu' with hu' | hu'
            · exact hO.small u (Finset.mem_coe.mp hu')
            · refine ⟨hu'.1, ?_⟩
              rw [componentOf_eq_of_reach Hsym hu'.2]
              exact hSmall
        have hunf : divLoop adjtest k s (v :: vs) pushed = divLoop adjtest k s vs p' := by
          simp only [divLoop]
          rw [if_neg (by rw [hvfresh]; simp), hres]
        rw [hunf, ih hvs' p' hO']
        constructor
        · intro h z hz
          rcases List.mem_cons.mp hz with rfl | hz
          · exact hSmall
          · exact h z hz
        · intro h z hz
          exact h z (List.mem_cons_of_mem _ hz)

/-- Correctness of the generic component-search loop: it accepts exactly
when every component of the abstract graph restricted to s has at most k
vertices. -/
theorem divLoop_correct {adjtest : Nat → Nat → Bool} {s : List Nat} {k : Int} {n : Nat}
    (Hsym : ∀ a b, a ∈ s → b ∈ s → adjtest a b = adjtest b a) (hk : 1 ≤ k)
    (hbnd : ∀ y ∈ s, y < n) :
    (divLoop adjtest k s s (List.replicate n false) = true ↔
      ∀ v ∈ s, ((componentOf adjtest s v).ncard : Int) ≤ k) := by
  apply divLoop_spec Hsym hk s (fun z hz => hz)
  refine ⟨?_, ?_, ?_⟩
  · intro y hy
    rw [List.length_replicate]
    exact hbnd y hy
  · intro a b _ _ _ hap
    exfalso
    have hgd := (mem_pushedF.mp hap).2
    rw [List.getD_eq_getElem?_getD, List.getElem?_replicate] at hgd
    split at hgd <;> simp_all
  · intro u hu
    exfalso
    have hgd := (mem_pushedF.mp hu).2
    rw [List.getD_eq_getElem?_getD, List.getElem?_replicate] at hgd
    split at hgd <;> simp_all

theorem reflTransGen_congr {α : Type} {r r' : α → α → Prop}
    (h : ∀ a b, r a b ↔ r' a b) {a b : α} :
    Relation.ReflTransGen r a b ↔ Relation.ReflTransGen r' a b :=
  ⟨Relation.ReflTransGen.mono fun x y hx => (h x y).mp hx,
   Relation.ReflTransGen.mono fun x y hx => (h x y).mpr hx⟩

theorem componentOf_graph (g : Graph) (s : List Nat) (v : Nat) :
    componentOf (fun x y => decide (y ∈ g.getD x [])) s v = component g s v := by
  unfold componentOf component ReachT Reach
  ext u
  simp only [Set.mem_setOf_eq]
  refine and_congr_right fun _ => reflTransGen_congr ?_
  intro a b
  unfold AdjRel IndStep Adj
  simp only [decide_eq_true_eq]

/-- C3: the k-divided predicate returned by make_k_divided_func holds on
(g, s) iff every connected component of the subgraph of g induced by s has
at most k vertices. -/
theorem c3_make_k_divided_correct (k : Int) (g : Graph) (s : List Nat)
    (hk : 1 ≤ k) (hg : ValidGraph g) (hs : s.Sorted (· < ·))
    (hbnd : ∀ x ∈ s, x < g.length) :
    make_k_divided_func k = some (is_k_divided k) ∧
    (is_k_divided k g s = true ↔
      ∀ v ∈ s, ((component g s v).ncard : Int) ≤ k) := by
  refine ⟨by unfold make_k_divided_func; rw [if_pos hk], ?_⟩
  unfold is_k_divided
  have Hsym : ∀ a b, a ∈ s → b ∈ s →
      (fun x y => decide (y ∈ g.getD x [])) a b =
        (fun x y => decide (y ∈ g.getD x [])) b a := by
    intro a b _ _
    simp only [decide_eq_decide]
    exact ⟨fun h => adj_symm_of_valid hg h, fun h => adj_symm_of_valid hg h⟩
  rw [divLoop_correct Hsym hk hbnd]
  constructor
  · intro h v hv
    rw [← componentOf_graph]
    exact h v hv
  · intro h v hv
    rw [componentOf_graph]
    exact h v hv

theorem c3_make_k_divided_correct_witness :
    (1 : Int) ≤ 2 ∧ ValidGraph [[1], [0, 2], [1, 3], [2, 4], [3]] ∧
      (make_k_divided_func 2 = some (is_k_divided 2) ∧
        (is_k_divided 2 [[1], [0, 2], [1, 3], [2, 4], [3]] [0, 1, 3, 4] = true ↔
          ∀ v ∈ [0, 1, 3, 4],
            ((component [[1], [0, 2], [1, 3], [2, 4], [3]] [0, 1, 3, 4] v).ncard : Int) ≤ 2)) :=
  ⟨by decide, by decide,
   c3_make_k_divided_correct 2 [[1], [0, 2], [1, 3], [2, 4], [3]] [0, 1, 3, 4]
     (by decide) (by decide) (by decide) (by decide)⟩

/-
The complement variants (claim C7).
-/

theorem complement_length (g : Graph) : (complement g).length = g.length := by
  simp [complement]

theorem complement_adj (g : Graph) (u v : Nat) :
    Adj (complement g) u v ↔ u < g.length ∧ v < g.length ∧ v ≠ u ∧ ¬ Adj g u v := by
  unfold Adj complement
  by_cases hu : u < g.length
  · rw [List.getD_eq_getElem _ _ (by simpa using hu)]
    rw [List.getElem_map, List.getElem_range, List.mem_filter]
    simp only [List.mem_range, Bool.and_eq_true, Bool.not_eq_eq_eq_not, Bool.not_true,
      decide_eq_false_iff_not]
    constructor
    · rintro ⟨h1, h2, h3⟩
      exact ⟨hu, h1, h2, h3⟩
    · rintro ⟨_, h1, h2, h3⟩
      exact ⟨h1, h2, h3⟩
  · rw [List.getD_eq_default _ _ (by simpa using hu)]
    simp only [List.not_mem_nil, false_iff]
    tauto

theorem reflTransGen_mono_offdiag {α : Type} {r r' : α → α → Prop}
    (h : ∀ a b, a ≠ b → r a b → r' a b) {a b : α}
    (hr : Relation.ReflTransGen r a b) : Relation.ReflTransGen r' a b := by
  induction hr with
  | refl => exact Relation.ReflTransGen.refl
  | @tail x y h1 hstep ih =>
    by_cases hxy : x = y
    · subst hxy; exact ih
    · exact ih.tail (h x y hxy hstep)

theorem countP_eq_countP_of_iff {l1 l2 : List Nat} (h1 : l1.Nodup) (h2 : l2.Nodup)
    {p q : Nat → Bool} (h : ∀ x, (x ∈ l1 ∧ p x = true) ↔ (x ∈ l2 ∧ q x = true)) :
    l1.countP p = l2.countP q := by
  rw [List.countP_eq_length_filter, List.countP_eq_length_filter,
    ← List.toFinset_card_of_nodup (h1.filter p), ← List.toFinset_card_of_nodup (h2.filter q)]
  congr 1
  ext x
  simp only [List.mem_toFinset, List.mem_filter]
  exact h x

theorem complement_getD {g : Graph} {v : Nat} (hv : v < g.length) :
    (complement g).getD v [] =
      (List.range g.length).filter
        (fun u => !decide (u = v) && !decide (u ∈ g.getD v [])) := by
  unfold complement
  rw [List.getD_eq_getElem _ _ (by simpa using hv), List.getElem_map, List.getElem_range]

/-- C7: each complement predicate agrees with the corresponding
non-complement predicate evaluated on the true complement of the graph. -/
theorem c7_complement_variants (k : Int) (g : Graph) (s : List Nat)
    (hg : ValidGraph g) (hs : s.Sorted (· < ·)) (hbnd : ∀ x ∈ s, x < g.length) :
    (∀ fc fd, make_k_divided_compl_func k = some fc → make_k_divided_func k = some fd →
      fc g s = fd (complement g) s) ∧
    make_k_sparse_compl_func k g s = make_k_sparse_func k (complement g) s := by
  constructor
  · intro fc fd hfc hfd
    unfold make_k_divided_compl_func at hfc
    unfold make_k_divided_func at hfd
    by_cases hk : 1 ≤ k
    · rw [if_pos hk] at hfc hfd
      obtain rfl := Option.some.inj hfc
      obtain rfl := Option.some.inj hfd
      unfold is_k_divided_compl is_k_divided
      have Hsym1 : ∀ a b, a ∈ s → b ∈ s →
          (fun x y => !decide (y ∈ g.getD x [])) a b =
            (fun x y => !decide (y ∈ g.getD x [])) b a := by
        intro a b _ _
        simp only [Bool.not_inj_iff, decide_eq_decide]
        exact ⟨fun h => adj_symm_of_valid hg h, fun h => adj_symm_of_valid hg h⟩
      have Hsym2 : ∀ a b, a ∈ s → b ∈ s →
          (fun x y => decide (y ∈ (complement g).getD x [])) a b =
            (fun x y => decide (y ∈ (complement g).getD x [])) b a := by
        intro a b _ _
        simp only [decide_eq_decide]
        show Adj (complement g) a b ↔ Adj (complement g) b a
        rw [complement_adj, complement_adj]
        constructor
        · rintro ⟨h1, h2, h3, h4⟩
          exact ⟨h2, h1, Ne.symm h3, fun hc => h4 (adj_symm_of_valid hg hc)⟩
        · rintro ⟨h1, h2, h3, h4⟩
          exact ⟨h2, h1, Ne.symm h3, fun hc => h4 (adj_symm_of_valid hg hc)⟩
      have hbnd2 : ∀ x ∈ s, x < (complement g).length := by
        rw [complement_length]
        exact hbnd
      rw [Bool.eq_iff_iff, divLoop_correct Hsym1 hk hbnd, divLoop_correct Hsym2 hk hbnd2]
      have hcomp : ∀ v, componentOf (fun x y => !decide (y ∈ g.getD x [])) s v
          = componentOf (fun x y => decide (y ∈ (complement g).getD x [])) s v := by
        intro v
        unfold componentOf ReachT
        ext u
        simp only [Set.mem_setOf_eq]
        refine and_congr_right fun _ => ?_
        constructor
        · apply reflTransGen_mono_offdiag
          rintro a b hab ⟨ha, hb, hx⟩
          refine ⟨ha, hb, ?_⟩
          rw [decide_eq_true_eq]
          show Adj (complement g) a b
          rw [complement_adj]
          refine ⟨hbnd a ha, hbnd b hb, Ne.symm hab, ?_⟩
          rw [Bool.not_eq_true', decide_eq_false_iff_not] at hx
          exact hx
        · apply reflTransGen_mono_offdiag
          rintro a b hab ⟨ha, hb, hx⟩
          refine ⟨ha, hb, ?_⟩
          rw [decide_eq_true_eq] at hx
          have hadj := (complement_adj g a b).mp hx
          rw [Bool.not_eq_true', decide_eq_false_iff_not]
          exact hadj.2.2.2
      constructor
      · intro h v hv
        rw [← hcomp]
        exact h v hv
      · intro h v hv
        rw [hcomp]
        exact h v hv
    · rw [if_neg hk] at hfc
      exact absurd hfc (by simp)
  · unfold make_k_sparse_compl_func make_k_sparse_func is_k_sparse_compl is_k_sparse
    have hpt : ∀ v ∈ s,
        sparseComplInner k g v s 0 = sparseInner k s ((complement g).getD v []) 0 := by
      intro v hv
      have hvn : v < g.length := hbnd v hv
      have hcount : s.countP (fun x => !decide (x = v) && !decide (x ∈ g.getD v [])) =
          ((complement g).getD v []).countP (fun x => decide (x ∈ s)) := by
        rw [complement_getD hvn]
        apply countP_eq_countP_of_iff hs.nodup ((List.nodup_range _).filter _)
        intro x
        simp only [List.mem_filter, List.mem_range, Bool.and_eq_true, decide_eq_true_eq,
          Bool.not_eq_eq_eq_not, Bool.not_true, decide_eq_false_iff_not]
        constructor
        · rintro ⟨hxs, hxv, hxg⟩
          exact ⟨⟨hbnd x hxs, hxv, hxg⟩, hxs⟩
        · rintro ⟨⟨_, hxv, hxg⟩, hxs⟩
          exact ⟨hxs, hxv, hxg⟩
      rw [Bool.eq_iff_iff, sparseComplInner_true_iff, sparseInner_true_iff, hcount]
    rw [Bool.eq_iff_iff]
    simp only [List.all_eq_true]
    constructor
    · intro h v hv
      rw [← hpt v hv]
      exact h v hv
    · intro h v hv
      rw [hpt v hv]
      exact h v hv

theorem c7_complement_variants_witness :
    ValidGraph [[2, 3, 4], [3, 4], [0, 4], [0, 1], [0, 1, 2]] ∧
      (is_k_divided_compl 2 [[2, 3, 4], [3, 4], [0, 4], [0, 1], [0, 1, 2]] [0, 1, 3, 4] =
        is_k_divided 2 (complement [[2, 3, 4], [3, 4], [0, 4], [0, 1], [0, 1, 2]]) [0, 1, 3, 4]) ∧
      (make_k_sparse_compl_func 1 [[2, 3, 4], [3, 4], [0, 4], [0, 1], [0, 1, 2]] [0, 1, 3, 4] =
        make_k_sparse_func 1 (complement [[2, 3, 4], [3, 4], [0, 4], [0, 1], [0, 1, 2]]) [0, 1, 3, 4]) :=
  ⟨by decide,
   (c7_complement_variants 2 [[2, 3, 4], [3, 4], [0, 4], [0, 1], [0, 1, 2]] [0, 1, 3, 4]
     (by decide) (by decide) (by decide)).1 (is_k_divided_compl 2) (is_k_divided 2) rfl rfl,
   (c7_complement_variants 1 [[2, 3, 4], [3, 4], [0, 4], [0, 1], [0, 1, 2]] [0, 1, 3, 4]
     (by decide) (by decide) (by decide)).2⟩

theorem getD_append_last (st : Store) (c : List Nat) :
    List.getD (st ++ [c]) st.length [] = c := by
  rw [List.getD_eq_getElem?_getD, List.getElem?_append_right (le_refl _)]
  simp

theorem buildCandidateSt_grows (w : Nat) (st : Store) (r : GraphRef) (vset : List Nat) :
    st <+: (buildCandidateSt w st r vset).1 := by
  have hgen : ∀ (l : List Nat) (p : Store × GraphRef),
      p.1 <+: (l.foldl
        (fun p v => (p.1 ++ [p.1.getD (p.2.getD v 0) [] ++ [w]], p.2.set v p.1.length))
        p).1 := by
    intro l
    induction l with
    | nil => intro p; exact List.prefix_rfl
    | cons v l ih =>
      intro p
      refine List.IsPrefix.trans ?_ (ih _)
      exact List.prefix_append _ _
  unfold buildCandidateSt
  exact List.IsPrefix.trans (List.prefix_append st [vset])
    (hgen vset (st ++ [vset], r ++ [st.length]))

theorem candidatesForParentSt_grows (f1 f2 : Pred) (n : Nat) (b1 b2 : Int)
    (oldref : GraphRef) :
    ∀ (vsets : List (List Nat)) (st : Store),
      st <+: (candidatesForParentSt f1 f2 n b1 b2 oldref vsets st).1 := by
  intro vsets
  induction vsets with
  | nil => intro st; exact List.prefix_rfl
  | cons vset vsets ih =>
    intro st
    have h1 := buildCandidateSt_grows (n - 1) st oldref vset
    have h2 := ih (buildCandidateSt (n - 1) st oldref vset).1
    unfold candidatesForParentSt
    dsimp only
    split <;> exact List.IsPrefix.trans h1 h2

theorem bigListSt_grows (f1 f2 : Pred) (n : Nat) (b1 b2 : Int) :
    ∀ (old : List GraphRef) (st : Store),
      st <+: (bigListSt f1 f2 n b1 b2 old st).1 := by
  intro old
  induction old with
  | nil => intro st; exact List.prefix_rfl
  | cons r rs ih =>
    intro st
    exact List.IsPrefix.trans (candidatesForParentSt_grows f1 f2 n b1 b2 r _ st) (ih _)

theorem derefGraph_of_grows {st st' : Store} (h : st <+: st') (r : GraphRef)
    (hr : ∀ i ∈ r, i < st.length) : derefGraph st' r = derefGraph st r := by
  obtain ⟨t, rfl⟩ := h
  unfold derefGraph
  apply List.map_congr_left
  intro i hi
  exact List.getD_append _ _ _ _ (hr i hi)

theorem derefGraph_getD {st : Store} {r : GraphRef} {v : Nat} (hv : v < r.length) :
    (derefGraph st r).getD v [] = st.getD (r.getD v 0) [] := by
  unfold derefGraph
  rw [List.getD_eq_getElem _ _ (by simpa using hv), List.getElem_map,
    List.getD_eq_getElem _ _ hv]

theorem buildCandidateSt_deref (w : Nat) (st : Store) (r : GraphRef) (vset : List Nat)
    (hr : ∀ i ∈ r, i < st.length) (hv : ∀ v ∈ vset, v < r.length) :
    derefGraph (buildCandidateSt w st r vset).1 (buildCandidateSt w st r vset).2 =
      extendGraph (derefGraph st r) w vset := by
  unfold buildCandidateSt extendGraph
  have hinit : derefGraph (st ++ [vset]) (r ++ [st.length]) = derefGraph st r ++ [vset] := by
    unfold derefGraph
    rw [List.map_append]
    congr 1
    · apply List.map_congr_left
      intro i hi
      exact List.getD_append _ _ _ _ (hr i hi)
    · simp only [List.map_singleton]
      congr 1
      exact getD_append_last st vset
  have hgen : ∀ (l : List Nat) (stp : Store) (rp : GraphRef),
      (∀ v ∈ l, v < rp.length) → (∀ i ∈ rp, i < stp.length) →
      derefGraph (l.foldl
          (fun p v => (p.1 ++ [p.1.getD (p.2.getD v 0) [] ++ [w]], p.2.set v p.1.length))
          (stp, rp)).1
        (l.foldl
          (fun p v => (p.1 ++ [p.1.getD (p.2.getD v 0) [] ++ [w]], p.2.set v p.1.length))
          (stp, rp)).2 =
        l.foldl (fun g v => g.set v (g.getD v [] ++ [w])) (derefGraph stp rp) := by
    intro l
    induction l with
    | nil =>
      intro stp rp _ _
      rfl
    | cons v l ih =>
      intro stp rp hvl hrp
      have hvr : v < rp.length := hvl v (by simp)
      simp only [List.foldl_cons]
      have hstep : derefGraph (stp ++ [stp.getD (rp.getD v 0) [] ++ [w]])
          (rp.set v stp.length) =
          (derefGraph stp rp).set v ((derefGraph stp rp).getD v [] ++ [w]) := by
        unfold derefGraph
        rw [List.map_set]
        congr 1
        · apply List.map_congr_left
          intro i hi
          exact List.getD_append _ _ _ _ (hrp i hi)
        · rw [getD_append_last]
          congr 1
          exact (derefGraph_getD hvr).symm
      rw [← hstep]
      apply ih
      · intro v2 hv2
        rw [List.length_set]
        exact hvl v2 (by simp [hv2])
      · intro i hi
        rw [List.length_append, List.length_singleton]
        rcases List.mem_or_eq_of_mem_set hi with hi2 | rfl
        · have := hrp i hi2
          omega
        · omega
  rw [hgen vset (st ++ [vset]) (r ++ [st.length])
    (by intro v2 hv2; rw [List.length_append, List.length_singleton]; have := hv v2 hv2; omega)
    (by
      intro i hi
      rw [List.length_append, List.length_singleton]
      rcases List.mem_append.mp hi with hi2 | hi2
      · have := hr i hi2
        omega
      · rw [List.mem_singleton] at hi2
        omega), hinit]

/-- C8: fully consuming the candidate generator only ever appends fresh
cells to the store, so every parent graph dereferences to exactly its
original value afterwards; and each candidate is built as the extension of
its parent by the new vertex, never by writing into the parent's cells. -/
theorem c8_candidates_no_mutation (f1 f2 : Pred) (n : Nat) (b1 b2 : Int)
    (old : List GraphRef) (st : Store) :
    (st <+: (bigListSt f1 f2 n b1 b2 old st).1) ∧
    (∀ r ∈ old, (∀ i ∈ r, i < st.length) →
      derefGraph (bigListSt f1 f2 n b1 b2 old st).1 r = derefGraph st r) ∧
    (∀ (r : GraphRef) (vset : List Nat), (∀ i ∈ r, i < st.length) →
      (∀ v ∈ vset, v < r.length) →
      derefGraph (buildCandidateSt (n - 1) st r vset).1 (buildCandidateSt (n - 1) st r vset).2 =
        extendGraph (derefGraph st r) (n - 1) vset) :=
  ⟨bigListSt_grows f1 f2 n b1 b2 old st,
   fun r _ hr => derefGraph_of_grows (bigListSt_grows f1 f2 n b1 b2 old st) r hr,
   fun r vset hr hv => buildCandidateSt_deref (n - 1) st r vset hr hv⟩

theorem c8_candidates_no_mutation_witness :
    derefGraph (bigListSt (fun _ _ => false) (fun _ _ => false) 3 1 1 [[0, 1]] [[1], [0]]).1
        [0, 1] = derefGraph [[1], [0]] [0, 1] ∧
      derefGraph (buildCandidateSt 2 [[1], [0]] [0, 1] [0]).1
          (buildCandidateSt 2 [[1], [0]] [0, 1] [0]).2 =
        extendGraph (derefGraph [[1], [0]] [0, 1]) 2 [0] :=
  ⟨(c8_candidates_no_mutation (fun _ _ => false) (fun _ _ => false) 3 1 1 [[0, 1]]
      [[1], [0]]).2.1 [0, 1] (by decide) (by decide),
   (c8_candidates_no_mutation (fun _ _ => false) (fun _ _ => false) 3 1 1 [[0, 1]]
      [[1], [0]]).2.2 [0, 1] [0] (by decide) (by decide)⟩

/-
Claim C10: consistency between the reported number and the reported
extremal-graph list.
-/

theorem extendGraph_length (oldg : Graph) (w : Nat) (vset : List Nat) :
    (extendGraph oldg w vset).length = oldg.length + 1 := by
  unfold extendGraph
  have hgen : ∀ (l : List Nat) (g : Graph),
      (l.foldl (fun g v => g.set v (g.getD v [] ++ [w])) g).length = g.length := by
    intro l
    induction l with
    | nil => intro g; rfl
    | cons v l ih =>
      intro g
      simp only [List.foldl_cons]
      rw [ih, List.length_set]
  rw [hgen, List.length_append, List.length_singleton]

theorem mem_unique_iso {l : List Graph} {g : Graph} (h : g ∈ unique_iso l) : g ∈ l := by
  unfold unique_iso at h
  have hgen : ∀ (l2 : List Graph) (acc : List Graph),
      g ∈ l2.foldl (fun acc g => if acc.any fun r => isomorphic r g then acc
        else acc ++ [g]) acc →
      g ∈ acc ∨ g ∈ l2 := by
    intro l2
    induction l2 with
    | nil =>
      intro acc h
      exact Or.inl h
    | cons x xs ih =>
      intro acc h
      simp only [List.foldl_cons] at h
      rcases ih _ h with h2 | h2
      · revert h2
        split
        · intro h2; exact Or.inl h2
        · intro h2
          rcases List.mem_append.mp h2 with h3 | h3
          · exact Or.inl h3
          · rw [List.mem_singleton] at h3
            exact Or.inr (by simp [h3])
      · exact Or.inr (List.mem_cons_of_mem _ h2)
  rcases hgen l [] h with h2 | h2
  · simp at h2
  · exact h2

theorem big_list_length {f1 f2 : Pred} {n : Nat} {b1 b2 : Int} {old : List Graph}
    (hold : ∀ g ∈ old, g.length = n - 1) :
    ∀ g ∈ counterexamples_up_big_list f1 f2 n b1 b2 old, g.length = n - 1 + 1 := by
  intro g hg
  unfold counterexamples_up_big_list at hg
  simp only [List.mem_flatMap, List.mem_filter, List.mem_map] at hg
  obtain ⟨oldg, holdg, ⟨vset, _, rfl⟩, _⟩ := hg
  rw [extendGraph_length, hold oldg holdg]

theorem extremalsLoop_shape (f1 f2 : Pred) (b1 b2 : Int) :
    ∀ (fuel m : Nat) (gs : List Graph) (n' : Nat) (gs' : List Graph),
      1 ≤ m → gs ≠ [] → (∀ g ∈ gs, g.length = m - 1) →
      extremalsLoop f1 f2 b1 b2 fuel m gs = some (n', gs') →
      1 ≤ n' ∧ gs' ≠ [] ∧ ∀ g ∈ gs', g.length = n' - 1 := by
  intro fuel
  induction fuel with
  | zero =>
    intro m gs n' gs' _ _ _ h
    exact absurd h (by simp [extremalsLoop])
  | succ fuel ih =>
    intro m gs n' gs' hm hne hlen h
    simp only [extremalsLoop] at h
    by_cases hz : (counterexamples_up f1 f2 b1 b2 m gs).length = 0
    · rw [if_pos hz] at h
      simp only [Option.some.injEq, Prod.mk.injEq] at h
      obtain ⟨rfl, rfl⟩ := h
      exact ⟨hm, hne, hlen⟩
    · rw [if_neg hz] at h
      refine ih (m + 1) _ n' gs' (by omega) ?_ ?_ h
      · intro hc
        rw [hc] at hz
        exact hz rfl
      · intro g hg
        have hl := @big_list_length f1 f2 m b1 b2 gs hlen g (mem_unique_iso hg)
        rw [hl]
        omega

/-- C10: whenever extremals returns (n, gs) with n >= 1, the list gs is
nonempty and its graphs all have order n-1; when it returns n = 0, gs is
empty. -/
theorem c10_extremals_shape (fuel : Nat) (f1 f2 : Pred) (b1 b2 : Int)
    (n : Nat) (gs : List Graph)
    (h : extremals fuel f1 f2 b1 b2 = some (n, gs)) :
    (n = 0 → gs = []) ∧ (1 ≤ n → gs ≠ [] ∧ ∀ g ∈ gs, g.length = n - 1) := by
  unfold extremals at h
  dsimp only at h
  by_cases hz : (counterexamples_zero f1 f2 b1 b2).length = 0
  · rw [if_pos hz] at h
    simp only [Option.some.injEq, Prod.mk.injEq] at h
    obtain ⟨rfl, rfl⟩ := h
    exact ⟨fun _ => rfl, fun hc => absurd hc (by omega)⟩
  · rw [if_neg hz] at h
    have hlen0 : ∀ g ∈ counterexamples_zero f1 f2 b1 b2, g.length = 1 - 1 := by
      intro g hg
      unfold counterexamples_zero graphs at hg
      rw [List.mem_filter] at hg
      have hmem := hg.1
      simp at hmem
      rw [hmem]
      rfl
    have hshape := extremalsLoop_shape f1 f2 b1 b2 fuel 1 _ n gs (le_refl 1)
      (fun hc => hz (by rw [hc]; rfl)) hlen0 h
    refine ⟨fun h0 => ?_, fun _ => ⟨hshape.2.1, hshape.2.2⟩⟩
    exfalso
    have := hshape.1
    omega

theorem c10_extremals_shape_witness :
    extremals 1 (fun _ _ => true) (fun _ _ => true) 1 1 = some (1, [[]]) ∧
      ([([] : Graph)] ≠ ([] : List Graph) ∧
        ∀ g ∈ [([] : Graph)], g.length = 1 - 1) :=
  ⟨rfl, (c10_extremals_shape 1 (fun _ _ => true) (fun _ _ => true) 1 1 1 [[]] rfl).2
    (by decide)⟩

/-
Claim C1: full partial correctness of the extremal search engine. The
development starts with a pointwise description of the candidate
construction extendGraph.
-/

theorem getD_set_eq {α : Type} (d a : α) {l : List α} {i : Nat} (h : i < l.length) :
    (l.set i a).getD i d = a := by
  rw [List.getD_eq_getElem?_getD, List.getElem?_set]
  simp [h]

theorem getD_set_ne {α : Type} (d a : α) {l : List α} {i j : Nat} (h : i ≠ j) :
    (l.set i a).getD j d = l.getD j d := by
  rw [List.getD_eq_getElem?_getD, List.getElem?_set, if_neg h, ← List.getD_eq_getElem?_getD]

theorem foldl_set_getD {w : Nat} :
    ∀ (l : List Nat) (g0 : Graph), l.Nodup → (∀ v ∈ l, v < g0.length) →
      ∀ u, (l.foldl (fun g v => g.set v (g.getD v [] ++ [w])) g0).getD u [] =
        if u ∈ l then g0.getD u [] ++ [w] else g0.getD u [] := by
  intro l
  induction l with
  | nil =>
    intro g0 _ _ u
    simp
  | cons v l ih =>
    intro g0 hnd hb u
    have hvlen : v < g0.length := hb v (by simp)
    have hvl : v ∉ l := (List.nodup_cons.mp hnd).1
    simp only [List.foldl_cons]
    rw [ih _ (List.nodup_cons.mp hnd).2
      (by intro x hx; rw [List.length_set]; exact hb x (by simp [hx]))]
    by_cases hu : u ∈ l
    · rw [if_pos hu, if_pos (by simp [hu])]
      have huv : v ≠ u := fun hc => hvl (hc ▸ hu)
      rw [getD_set_ne _ _ huv]
    · rw [if_neg hu]
      by_cases huv : u = v
      · subst huv
        rw [getD_set_eq _ _ hvlen, if_pos (by simp)]
      · rw [getD_set_ne _ _ (fun hc => huv hc.symm), if_neg (by simp [huv, hu])]

theorem extendGraph_getD {oldg : Graph} {vset : List Nat} (hnd : vset.Nodup)
    (hb : ∀ v ∈ vset, v < oldg.length) (u : Nat) :
    (extendGraph oldg oldg.length vset).getD u [] =
      if u < oldg.length then
        (if u ∈ vset then oldg.getD u [] ++ [oldg.length] else oldg.getD u [])
      else if u = oldg.length then vset else [] := by
  unfold extendGraph
  rw [foldl_set_getD vset (oldg ++ [vset]) hnd
    (by intro v hv; rw [List.length_append, List.length_singleton]; have := hb v hv; omega)]
  by_cases hu : u < oldg.length
  · rw [if_pos hu]
    by_cases hm : u ∈ vset
    · rw [if_pos hm, if_pos hm, List.getD_append _ _ _ _ hu]
    · rw [if_neg hm, if_neg hm, List.getD_append _ _ _ _ hu]
  · rw [if_neg hu, if_neg (fun hc => hu (hb u hc))]
    by_cases he : u = oldg.length
    · subst he
      rw [if_pos rfl]
      exact getD_append_last oldg vset
    · rw [if_neg he, List.getD_eq_default]
      rw [List.length_append, List.length_singleton]
      omega

theorem extendGraph_adj {oldg : Graph} (hg : ValidGraph oldg) {vset : List Nat}
    (hnd : vset.Nodup) (hb : ∀ v ∈ vset, v < oldg.length) (u x : Nat) :
    Adj (extendGraph oldg oldg.length vset) u x ↔
      Adj oldg u x ∨ (u ∈ vset ∧ x = oldg.length) ∨ (u = oldg.length ∧ x ∈ vset) := by
  unfold Adj
  rw [extendGraph_getD hnd hb u]
  by_cases hu : u < oldg.length
  · rw [if_pos hu]
    by_cases hm : u ∈ vset
    · rw [if_pos hm, List.mem_append, List.mem_singleton]
      constructor
      · rintro (h | h)
        · exact Or.inl h
        · exact Or.inr (Or.inl ⟨hm, h⟩)
      · rintro (h | ⟨_, h⟩ | ⟨h, _⟩)
        · exact Or.inl h
        · exact Or.inr h
        · omega
    · rw [if_neg hm]
      constructor
      · intro h
        exact Or.inl h
      · rintro (h | ⟨h, _⟩ | ⟨h, _⟩)
        · exact h
        · exact absurd h hm
        · omega
  · rw [if_neg hu]
    have hnadj : ¬ Adj oldg u x := by
      intro hc
      exact hu (adj_lt_of_valid hg hc).1
    by_cases he : u = oldg.length
    · rw [if_pos he]
      constructor
      · intro h
        exact Or.inr (Or.inr ⟨he, h⟩)
      · rintro (h | ⟨h, _⟩ | ⟨_, h⟩)
        · exact absurd h hnadj
        · exact absurd (hb u h) (by omega)
        · exact h
    · rw [if_neg he]
      simp only [List.not_mem_nil, false_iff]
      rintro (h | ⟨h, _⟩ | ⟨h, _⟩)
      · exact hnadj h
      · exact hu (hb u h)
      · exact he h

theorem mem_iff_getD {g : Graph} {l : List Nat} :
    l ∈ g ↔ ∃ u, u < g.length ∧ l = g.getD u [] := by
  rw [List.mem_iff_getElem]
  constructor
  · rintro ⟨u, hu, rfl⟩
    exact ⟨u, hu, (List.getD_eq_getElem _ _ hu).symm⟩
  · rintro ⟨u, hu, rfl⟩
    exact ⟨u, hu, (List.getD_eq_getElem _ _ hu).symm⟩

theorem validGraph_of_getD (g : Graph)
    (h1 : ∀ u, ∀ x ∈ g.getD u [], x < g.length)
    (h2 : ∀ u v, Adj g u v → Adj g v u)
    (h3 : ∀ u, ¬ Adj g u u)
    (h4 : ∀ u, (g.getD u []).Sorted (· < ·)) : ValidGraph g := by
  refine ⟨?_, ?_, ?_, ?_⟩
  · intro l hl x hx
    obtain ⟨u, _, rfl⟩ := mem_iff_getD.mp hl
    exact h1 u x hx
  · intro u _ v _ h
    exact h2 u v h
  · intro u _
    exact h3 u
  · intro l hl
    obtain ⟨u, _, rfl⟩ := mem_iff_getD.mp hl
    exact h4 u

theorem extendGraph_valid {oldg : Graph} (hg : ValidGraph oldg) {vset : List Nat}
    (hvs : vset.Sorted (· < ·)) (hb : ∀ v ∈ vset, v < oldg.length) :
    ValidGraph (extendGraph oldg oldg.length vset) := by
  have hlen : (extendGraph oldg oldg.length vset).length = oldg.length + 1 :=
    extendGraph_length oldg oldg.length vset
  apply validGraph_of_getD
  · intro u x hx
    rw [hlen]
    rw [show x ∈ (extendGraph oldg oldg.length vset).getD u [] ↔
      Adj (extendGraph oldg oldg.length vset) u x from Iff.rfl] at hx
    rw [extendGraph_adj hg hvs.nodup hb] at hx
    rcases hx with h | ⟨_, h⟩ | ⟨_, h⟩
    · have := (adj_lt_of_valid hg h).2
      omega
    · omega
    · have := hb x h
      omega
  · intro u v h
    rw [extendGraph_adj hg hvs.nodup hb] at h
    rw [extendGraph_adj hg hvs.nodup hb]
    rcases h with h | ⟨h1, h2⟩ | ⟨h1, h2⟩
    · exact Or.inl (adj_symm_of_valid hg h)
    · exact Or.inr (Or.inr ⟨h2, h1⟩)
    · exact Or.inr (Or.inl ⟨h2, h1⟩)
  · intro u h
    rw [extendGraph_adj hg hvs.nodup hb] at h
    rcases h with h | ⟨h1, h2⟩ | ⟨h1, h2⟩
    · exact adj_irrefl_of_valid hg u h
    · exact absurd (hb u h1) (by omega)
    · exact absurd (hb u h2) (by omega)
  · intro u
    rw [extendGraph_getD hvs.nodup hb u]
    by_cases hu : u < oldg.length
    · rw [if_pos hu]
      by_cases hm : u ∈ vset
      · rw [if_pos hm]
        apply sorted_append_singleton (adjlist_sorted_of_valid hg u)
        intro x hx
        exact (adj_lt_of_valid hg hx).2
      · rw [if_neg hm]
        exact adjlist_sorted_of_valid hg u
    · rw [if_neg hu]
      by_cases he : u = oldg.length
      · rw [if_pos he]
        exact hvs
      · rw [if_neg he]
        simp

theorem pre_valid {g : Graph} (hg : ValidGraph g) {m : Nat} (hm : m ≤ g.length) :
    ValidGraph (pre g m) := by
  have hlen : (pre g m).length = m := by
    rw [pre_length]
    omega
  apply validGraph_of_getD
  · intro u x hx
    rw [hlen]
    have : Adj (pre g m) u x := hx
    rw [pre_adj] at this
    exact this.2.1
  · intro u v h
    rw [pre_adj] at h ⊢
    exact ⟨h.2.1, h.1, adj_symm_of_valid hg h.2.2⟩
  · intro u h
    rw [pre_adj] at h
    exact adj_irrefl_of_valid hg u h.2.2
  · intro u
    unfold pre
    by_cases hu : u < m
    · rw [List.getD_eq_getElem _ _ (by simp; omega), List.getElem_map, List.getElem_take]
      apply List.Pairwise.filter
      have : g[u] = g.getD u [] := (List.getD_eq_getElem _ _ (by omega)).symm
      rw [this]
      exact adjlist_sorted_of_valid hg u
    · rw [List.getD_eq_default _ _ (by simp; omega)]
      simp

theorem pre_extendGraph {oldg : Graph} (hg : ValidGraph oldg) {vset : List Nat}
    (hnd : vset.Nodup) (hb : ∀ v ∈ vset, v < oldg.length) :
    pre (extendGraph oldg oldg.length vset) oldg.length = oldg := by
  have hlen : (extendGraph oldg oldg.length vset).length = oldg.length + 1 :=
    extendGraph_length oldg oldg.length vset
  apply List.ext_getElem
  · rw [pre_length, hlen]
    simp
  · intro u h1 h2
    have hprelen : (pre (extendGraph oldg oldg.length vset) oldg.length).length =
        oldg.length := by
      rw [pre_length, hlen]
      simp
    have hu : u < oldg.length := by
      rw [hprelen] at h1
      exact h1
    unfold pre
    rw [List.getElem_map, List.getElem_take]
    have hext : (extendGraph oldg oldg.length vset)[u] =
        (extendGraph oldg oldg.length vset).getD u [] := by
      rw [List.getD_eq_getElem]
    rw [hext, extendGraph_getD hnd hb u, if_pos hu]
    have hgetu : oldg[u] = oldg.getD u [] := by
      rw [List.getD_eq_getElem]
    by_cases hm : u ∈ vset
    · rw [if_pos hm, List.filter_append]
      have h1 : List.filter (fun x => decide (x < oldg.length)) (oldg.getD u []) =
          oldg.getD u [] := by
        rw [List.filter_eq_self]
        intro x hx
        simp only [decide_eq_true_eq]
        exact (adj_lt_of_valid hg hx).2
      have h2 : List.filter (fun x => decide (x < oldg.length)) [oldg.length] = [] := by
        simp
      rw [h1, h2, List.append_nil, hgetu]
    · rw [if_neg hm]
      rw [List.filter_eq_self.mpr, hgetu]
      intro x hx
      simp only [decide_eq_true_eq]
      exact (adj_lt_of_valid hg hx).2

theorem sorted_split_last {l : List Nat} {m : Nat} (hs : l.Sorted (· < ·))
    (hb : ∀ x ∈ l, x < m + 1) (hm : m ∈ l) :
    l = l.filter (fun x => decide (x < m)) ++ [m] := by
  have hperm := List.filter_append_perm (fun x => decide (x < m)) l
  have hone : (l.filter fun x => !decide (x < m)) = [m] := by
    apply eq_singleton_of_forall_eq (hs.nodup.filter _)
    · intro x hx
      rw [List.mem_filter] at hx
      have h1 := hb x hx.1
      have h2 := hx.2
      simp only [Bool.not_eq_eq_eq_not, Bool.not_true, decide_eq_false_iff_not,
        not_lt] at h2
      omega
    · rw [List.mem_filter]
      refine ⟨hm, by simp⟩
  rw [hone] at hperm
  apply List.eq_of_perm_of_sorted (r := (· < ·)) hperm.symm hs
  apply sorted_append_singleton (List.Pairwise.filter _ hs)
  intro x hx
  rw [List.mem_filter] at hx
  simpa using hx.2

theorem pre_getD {g : Graph} {m u : Nat} (hu : u < m) (hul : u < g.length) :
    (pre g m).getD u [] = (g.getD u []).filter (fun x => decide (x < m)) := by
  unfold pre
  rw [List.getD_eq_getElem _ _ (by simp; omega), List.getElem_map, List.getElem_take]
  congr 1
  exact (List.getD_eq_getElem _ _ hul).symm

theorem pre_reconstruct {h : Graph} (hv : ValidGraph h) {m : Nat}
    (hlen : h.length = m + 1) :
    extendGraph (pre h m) (pre h m).length (h.getD m []) = h := by
  have hprelen : (pre h m).length = m := by
    rw [pre_length]
    omega
  have hvsort : (h.getD m []).Sorted (· < ·) := adjlist_sorted_of_valid hv m
  have hvb : ∀ x ∈ h.getD m [], x < (pre h m).length := by
    intro x hx
    rw [hprelen]
    have hadj : Adj h m x := hx
    have hxlt := (adj_lt_of_valid hv hadj).2
    have hxm : x ≠ m := by
      rintro rfl
      exact adj_irrefl_of_valid hv x hadj
    omega
  apply List.ext_getElem
  · rw [extendGraph_length, hprelen, hlen]
  · intro u h1 h2
    have hu : u < m + 1 := by
      rw [extendGraph_length, hprelen] at h1
      exact h1
    have hext : (extendGraph (pre h m) (pre h m).length (h.getD m []))[u] =
        (extendGraph (pre h m) (pre h m).length (h.getD m [])).getD u [] :=
      (List.getD_eq_getElem _ _ h1).symm
    have hh : h[u] = h.getD u [] := (List.getD_eq_getElem _ _ h2).symm
    rw [hext, hh, extendGraph_getD hvsort.nodup hvb u, hprelen]
    by_cases hum : u < m
    · rw [if_pos hum, pre_getD hum (by omega)]
      have hbu : ∀ x ∈ h.getD u [], x < m + 1 := by
        intro x hx
        have := (adj_lt_of_valid hv (show Adj h u x from hx)).2
        omega
      by_cases hmem : u ∈ h.getD m []
      · rw [if_pos hmem]
        have hmadj : Adj h u m := adj_symm_of_valid hv hmem
        exact (sorted_split_last (adjlist_sorted_of_valid hv u) hbu hmadj).symm
      · rw [if_neg hmem]
        rw [List.filter_eq_self]
        intro x hx
        simp only [decide_eq_true_eq]
        have hxlt := hbu x hx
        have hxm : x ≠ m := by
          rintro rfl
          exact hmem (adj_symm_of_valid hv hx)
        omega
    · rw [if_neg hum, if_pos (by omega)]
      have : u = m := by omega
      rw [this]

/-
Isomorphism infrastructure for C1.
-/

theorem range_getD {n u : Nat} (h : u < n) : (List.range n).getD u 0 = u := by
  rw [List.getD_eq_getElem _ _ (by simpa using h), List.getElem_range]

theorem perm_range_getD_lt {n : Nat} {p : List Nat} (hp : p.Perm (List.range n))
    {u : Nat} (hu : u < n) : p.getD u 0 < n := by
  have hlen : p.length = n := by rw [hp.length_eq, List.length_range]
  have hmem : p.getD u 0 ∈ p := by
    rw [List.getD_eq_getElem _ _ (by omega)]
    exact List.getElem_mem _
  rw [hp.mem_iff, List.mem_range] at hmem
  exact hmem

theorem perm_range_getD_inj {n : Nat} {p : List Nat} (hp : p.Perm (List.range n))
    {u v : Nat} (hu : u < n) (hv : v < n) (h : p.getD u 0 = p.getD v 0) : u = v := by
  have hlen : p.length = n := by rw [hp.length_eq, List.length_range]
  have hnd : p.Nodup := hp.nodup_iff.mpr (List.nodup_range n)
  rw [List.getD_eq_getElem _ _ (show u < p.length by omega)] at h
  rw [List.getD_eq_getElem _ _ (show v < p.length by omega)] at h
  exact hnd.getElem_inj_iff.mp h

theorem isomorphic_iff (g1 g2 : Graph) : isomorphic g1 g2 = true ↔ IsoP g1 g2 := by
  unfold isomorphic IsoP permMapsAdj adjAt
  rw [Bool.and_eq_true, decide_eq_true_eq, List.any_eq_true]
  apply and_congr_right
  intro _
  constructor
  · rintro ⟨p, hpmem, hall⟩
    refine ⟨p, List.mem_permutations.mp hpmem, ?_⟩
    intro u v hu hv
    rw [List.all_eq_true] at hall
    have h1 := hall u (List.mem_range.mpr hu)
    rw [List.all_eq_true] at h1
    have h2 := h1 v (List.mem_range.mpr hv)
    rw [beq_iff_eq] at h2
    exact decide_eq_decide.mp h2
  · rintro ⟨p, hperm, hadj⟩
    refine ⟨p, List.mem_permutations.mpr hperm, ?_⟩
    rw [List.all_eq_true]
    intro u hu
    rw [List.all_eq_true]
    intro v hv
    rw [beq_iff_eq]
    exact decide_eq_decide.mpr (hadj u v (List.mem_range.mp hu) (List.mem_range.mp hv))

theorem isoP_refl (g : Graph) : IsoP g g := by
  refine ⟨rfl, List.range g.length, List.Perm.refl _, ?_⟩
  intro u v hu hv
  rw [range_getD hu, range_getD hv]

theorem perm_range_of_nodup_subset {n : Nat} {q : List Nat} (hnd : q.Nodup)
    (hsub : ∀ x ∈ q, x < n) (hlen : q.length = n) : q.Perm (List.range n) := by
  apply List.perm_of_nodup_nodup_toFinset_eq hnd (List.nodup_range n)
  apply Finset.eq_of_subset_of_card_le
  · intro x hx
    rw [List.mem_toFinset] at hx
    rw [List.mem_toFinset, List.mem_range]
    exact hsub x hx
  · rw [List.toFinset_card_of_nodup hnd, List.toFinset_card_of_nodup (List.nodup_range n),
      List.length_range, hlen]

theorem isoP_trans {g1 g2 g3 : Graph} (h12 : IsoP g1 g2) (h23 : IsoP g2 g3) :
    IsoP g1 g3 := by
  obtain ⟨hl12, p1, hp1, ha1⟩ := h12
  obtain ⟨hl23, p2, hp2, ha2⟩ := h23
  have hgetD : ∀ u, u < g1.length →
      ((List.range g1.length).map (fun i => p2.getD (p1.getD i 0) 0)).getD u 0 =
        p2.getD (p1.getD u 0) 0 := by
    intro u hu
    rw [List.getD_eq_getElem _ _ (by simpa using hu), List.getElem_map, List.getElem_range]
  refine ⟨hl12.trans hl23,
    (List.range g1.length).map (fun i => p2.getD (p1.getD i 0) 0), ?_, ?_⟩
  · apply perm_range_of_nodup_subset
    · apply List.Nodup.map_on ?_ (List.nodup_range _)
      intro x hx y hy hxy
      rw [List.mem_range] at hx hy
      have hx1 : p1.getD x 0 < g2.length := by
        rw [← hl12]
        exact perm_range_getD_lt hp1 hx
      have hy1 : p1.getD y 0 < g2.length := by
        rw [← hl12]
        exact perm_range_getD_lt hp1 hy
      exact perm_range_getD_inj hp1 hx hy (perm_range_getD_inj hp2 hx1 hy1 hxy)
    · intro x hx
      simp only [List.mem_map, List.mem_range] at hx
      obtain ⟨i, hi, rfl⟩ := hx
      have h1 : p1.getD i 0 < g2.length := by
        rw [← hl12]
        exact perm_range_getD_lt hp1 hi
      have h2 : p2.getD (p1.getD i 0) 0 < g2.length := perm_range_getD_lt hp2 h1
      rw [hl12]
      exact h2
    · rw [List.length_map, List.length_range]
  · intro u v hu hv
    rw [hgetD u hu, hgetD v hv]
    have hu1 : p1.getD u 0 < g2.length := by
      rw [← hl12]
      exact perm_range_getD_lt hp1 hu
    have hv1 : p1.getD v 0 < g2.length := by
      rw [← hl12]
      exact perm_range_getD_lt hp1 hv
    rw [ha1 u v hu hv, ha2 _ _ hu1 hv1]

theorem sorted_lt_of_sorted_le_nodup {l : List Nat}
    (h1 : l.Sorted (· ≤ ·)) (h2 : l.Nodup) : l.Sorted (· < ·) :=
  (List.Pairwise.and h1 h2).imp fun h => lt_of_le_of_ne h.1 h.2

/-- An f-set transports along an isomorphism when f is induced-hereditary. -/
theorem hasFset_of_iso {f : Pred} (hf : InducedHereditary f) {b : Int} {g1 g2 : Graph}
    (hiso : IsoP g1 g2) (h : HasFset f b g1) : HasFset f b g2 := by
  obtain ⟨hl, p, hp, hadj⟩ := hiso
  obtain ⟨s, hsort, hbnd, hlen, hfs⟩ := h
  have hemb : IndEmbed g1 g2 (fun u => p.getD u 0) := by
    refine ⟨?_, ?_, ?_⟩
    · intro u hu
      rw [← hl]
      exact perm_range_getD_lt hp hu
    · intro u v hu hv h
      exact perm_range_getD_inj hp hu hv h
    · exact hadj
  have heq := hf g1 g2 (fun u => p.getD u 0) hemb s hsort hbnd
  have hmapnd : (s.map (fun u => p.getD u 0)).Nodup := by
    apply List.Nodup.map_on ?_ hsort.nodup
    intro x hx y hy hxy
    exact perm_range_getD_inj hp (hbnd x hx) (hbnd y hy) hxy
  have hperm : List.Perm (sortMap (fun u => p.getD u 0) s) (s.map (fun u => p.getD u 0)) :=
    List.perm_insertionSort _ _
  have hnd : (sortMap (fun u => p.getD u 0) s).Nodup := hperm.nodup_iff.mpr hmapnd
  refine ⟨sortMap (fun u => p.getD u 0) s,
    sorted_lt_of_sorted_le_nodup (List.sorted_insertionSort _ _) hnd, ?_, ?_,
    by rw [← heq]; exact hfs⟩
  · intro x hx
    rw [hperm.mem_iff] at hx
    simp only [List.mem_map] at hx
    obtain ⟨y, hy, rfl⟩ := hx
    rw [← hl]
    exact perm_range_getD_lt hp (hbnd y hy)
  · rw [hperm.length_eq, List.length_map]
    exact hlen

/-
Properties of the deduplication collaborator and of powerset, for C1.
-/

theorem unique_iso_foldl_grows (l : List Graph) (acc : List Graph) :
    acc <+: l.foldl
      (fun acc g => if acc.any fun r => isomorphic r g then acc else acc ++ [g]) acc := by
  induction l generalizing acc with
  | nil => exact List.prefix_rfl
  | cons x xs ih =>
    simp only [List.foldl_cons]
    refine List.IsPrefix.trans ?_ (ih _)
    split
    · exact List.prefix_rfl
    · exact List.prefix_append _ _

theorem unique_iso_cover (l : List Graph) :
    ∀ g ∈ l, ∃ r ∈ unique_iso l, IsoP r g := by
  unfold unique_iso
  have hgen : ∀ (l2 : List Graph) (acc : List Graph), ∀ g ∈ l2,
      ∃ r ∈ l2.foldl
        (fun acc g => if acc.any fun r => isomorphic r g then acc else acc ++ [g]) acc,
        IsoP r g := by
    intro l2
    induction l2 with
    | nil => intro acc g hg; simp at hg
    | cons x xs ih =>
      intro acc g hg
      simp only [List.foldl_cons]
      rcases List.mem_cons.mp hg with rfl | hg2
      · split
        · rename_i hany
          obtain ⟨r, hr, hiso⟩ := List.any_eq_true.mp hany
          refine ⟨r, ?_, (isomorphic_iff r g).mp hiso⟩
          exact (unique_iso_foldl_grows xs acc).subset hr
        · refine ⟨g, ?_, isoP_refl g⟩
          exact (unique_iso_foldl_grows xs (acc ++ [g])).subset (by simp)
      · exact ih _ g hg2
  exact hgen l []

theorem unique_iso_pairwise (l : List Graph) :
    (unique_iso l).Pairwise fun r1 r2 => ¬ IsoP r1 r2 := by
  unfold unique_iso
  have hgen : ∀ (l2 : List Graph) (acc : List Graph),
      acc.Pairwise (fun r1 r2 => ¬ IsoP r1 r2) →
      (∀ g2, (∀ r ∈ acc, ¬ IsoP r g2) ∨ True) →
      (l2.foldl
        (fun acc g => if acc.any fun r => isomorphic r g then acc else acc ++ [g])
        acc).Pairwise (fun r1 r2 => ¬ IsoP r1 r2) := by
    intro l2
    induction l2 with
    | nil => intro acc h _; exact h
    | cons x xs ih =>
      intro acc h _
      simp only [List.foldl_cons]
      split
      · exact ih acc h (fun _ => Or.inr trivial)
      · rename_i hany
        apply ih _ ?_ (fun _ => Or.inr trivial)
        rw [List.pairwise_append]
        refine ⟨h, List.pairwise_singleton _ _, ?_⟩
        intro a ha c hc
        rw [List.mem_singleton] at hc
        subst hc
        intro hiso
        rw [List.any_eq_true] at hany
        exact hany ⟨a, ha, (isomorphic_iff a c).mpr hiso⟩
  exact hgen l [] (by simp) (fun _ => Or.inr trivial)

theorem unique_iso_ne_nil {l : List Graph} (h : l ≠ []) : unique_iso l ≠ [] := by
  cases l with
  | nil => exact absurd rfl h
  | cons x xs =>
    unfold unique_iso
    simp only [List.foldl_cons, List.any_nil, Bool.false_eq_true, if_false,
      List.nil_append]
    intro hc
    have := (unique_iso_foldl_grows xs [x]).subset (show x ∈ [x] by simp)
    rw [hc] at this
    simp at this

theorem mem_powerset_iff {l vset : List Nat} : vset ∈ powerset l ↔ vset.Sublist l := by
  unfold powerset
  simp only [List.mem_flatMap, List.mem_range]
  constructor
  · rintro ⟨r, _, hmem⟩
    exact ((mem_combinations_iff r l vset).mp hmem).2
  · intro hsub
    refine ⟨vset.length, ?_, (mem_combinations_iff _ _ _).mpr ⟨rfl, hsub⟩⟩
    have := hsub.length_le
    omega

/-- Transport of the one-vertex extension along an isomorphism of the
parents: extending an isomorphic copy r of p by the preimage of the new
vertex's neighbour set produces a graph isomorphic to the extension of p. -/
theorem extend_iso {r p : Graph} (hr : ValidGraph r) (hp : ValidGraph p)
    (hiso : IsoP r p) {vset : List Nat} (hvs : vset.Sorted (· < ·))
    (hvb : ∀ x ∈ vset, x < p.length) :
    ∃ w : List Nat, w.Sorted (· < ·) ∧ (∀ x ∈ w, x < r.length) ∧
      IsoP (extendGraph r r.length w) (extendGraph p p.length vset) := by
  obtain ⟨hl, p1, hp1, ha1⟩ := hiso
  have hp1len : p1.length = r.length := by
    rw [hp1.length_eq, List.length_range]
  refine ⟨(List.range r.length).filter (fun u => decide (p1.getD u 0 ∈ vset)), ?_, ?_, ?_⟩
  · exact List.Pairwise.filter _ (List.pairwise_lt_range _)
  · intro x hx
    rw [List.mem_filter, List.mem_range] at hx
    exact hx.1
  · have hwnd : ((List.range r.length).filter
        (fun u => decide (p1.getD u 0 ∈ vset))).Nodup :=
      ((List.pairwise_lt_range _).filter _).nodup
    have hwb : ∀ x ∈ (List.range r.length).filter (fun u => decide (p1.getD u 0 ∈ vset)),
        x < r.length := by
      intro x hx
      rw [List.mem_filter, List.mem_range] at hx
      exact hx.1
    have hwmem : ∀ u, u < r.length →
        (u ∈ (List.range r.length).filter (fun u => decide (p1.getD u 0 ∈ vset)) ↔
          p1.getD u 0 ∈ vset) := by
      intro u hu
      rw [List.mem_filter, List.mem_range]
      simp [hu]
    have hget_lt : ∀ u, u < r.length → (p1 ++ [r.length]).getD u 0 = p1.getD u 0 := by
      intro u hu
      exact List.getD_append _ _ _ _ (by omega)
    have hget_last : (p1 ++ [r.length]).getD r.length 0 = r.length := by
      rw [List.getD_append_right _ _ _ _ (by omega), hp1len]
      simp
    have hphi_lt : ∀ u, u < r.length → p1.getD u 0 < p.length := by
      intro u hu
      rw [← hl]
      exact perm_range_getD_lt hp1 hu
    refine ⟨?_, p1 ++ [r.length], ?_, ?_⟩
    · rw [extendGraph_length, extendGraph_length, hl]
    · rw [extendGraph_length]
      have hperm : List.Perm (p1 ++ [r.length]) (List.range r.length ++ [r.length]) :=
        hp1.append_right _
      rw [← List.range_succ] at hperm
      exact hperm
    · intro u v hu hv
      rw [extendGraph_length] at hu hv
      rw [extendGraph_adj hr hwnd hwb, extendGraph_adj hp hvs.nodup hvb]
      by_cases huu : u < r.length
      · rw [hget_lt u huu]
        by_cases hvv : v < r.length
        · rw [hget_lt v hvv]
          have hnv : ¬ v = r.length := by omega
          have hnphiv : ¬ p1.getD v 0 = p.length := by
            have := hphi_lt v hvv
            omega
          constructor
          · rintro (h | ⟨_, h⟩ | ⟨h, _⟩)
            · exact Or.inl ((ha1 u v huu hvv).mp h)
            · exact absurd h hnv
            · exact absurd h (by omega)
          · rintro (h | ⟨_, h⟩ | ⟨h, _⟩)
            · exact Or.inl ((ha1 u v huu hvv).mpr h)
            · exact absurd h hnphiv
            · exact absurd h (by
                have := hphi_lt u huu
                omega)
        · have hveq : v = r.length := by omega
          subst hveq
          rw [hget_last]
          constructor
          · rintro (h | ⟨h, _⟩ | ⟨h, _⟩)
            · exact absurd (adj_lt_of_valid hr h).2 (by omega)
            · rw [hl]
              exact Or.inr (Or.inl ⟨(hwmem u huu).mp h, rfl⟩)
            · exact absurd h (by omega)
          · rintro (h | ⟨h, _⟩ | ⟨h, _⟩)
            · exact absurd (adj_lt_of_valid hp h).2 (by omega)
            · exact Or.inr (Or.inl ⟨(hwmem u huu).mpr h, rfl⟩)
            · exact absurd h (by
                have := hphi_lt u huu
                omega)
      · have hueq : u = r.length := by omega
        subst hueq
        rw [hget_last]
        by_cases hvv : v < r.length
        · rw [hget_lt v hvv]
          constructor
          · rintro (h | ⟨h, _⟩ | ⟨_, h⟩)
            · exact absurd (adj_lt_of_valid hr h).1 (by omega)
            · exact absurd (hwb _ h) (by omega)
            · rw [hl]
              exact Or.inr (Or.inr ⟨rfl, (hwmem v hvv).mp h⟩)
          · rintro (h | ⟨h, _⟩ | ⟨_, h⟩)
            · exact absurd (adj_lt_of_valid hp h).1 (by
                have := hl
                omega)
            · exact absurd (hvb _ h) (by
                have := hl
                omega)
            · exact Or.inr (Or.inr ⟨rfl, (hwmem v hvv).mpr h⟩)
        · have hveq : v = r.length := by omega
          subst hveq
          rw [hget_last]
          constructor
          · rintro (h | ⟨h, _⟩ | ⟨_, h⟩)
            · exact absurd (adj_lt_of_valid hr h).1 (by omega)
            · exact absurd (hwb _ h) (by omega)
            · exact absurd (hwb _ h) (by omega)
          · rintro (h | ⟨h, _⟩ | ⟨_, h⟩)
            · exact absurd (adj_lt_of_valid hp h).1 (by
                have := hl
                omega)
            · exact absurd (hvb _ h) (by
                have := hl
                omega)
            · exact absurd (hvb _ h) (by
                have := hl
                omega)

/-
The level invariant of the engine and its preservation (C1).
-/

theorem counterexample_iff_bool {f1 f2 : Pred} {b1 b2 : Int} {g : Graph} :
    (!has_fset f1 b1 g && !has_fset f2 b2 g) = true ↔
      Counterexample f1 f2 b1 b2 g := by
  rw [Bool.and_eq_true, Bool.not_eq_true', Bool.not_eq_true']
  unfold Counterexample
  constructor
  · rintro ⟨hf1, hf2⟩
    constructor
    · intro hc
      rw [← has_fset_true_iff] at hc
      rw [hc] at hf1
      simp at hf1
    · intro hc
      rw [← has_fset_true_iff] at hc
      rw [hc] at hf2
      simp at hf2
  · rintro ⟨hf1, hf2⟩
    constructor
    · rw [← Bool.not_eq_true]
      intro hc
      exact hf1 ((has_fset_true_iff _ _ _).mp hc)
    · rw [← Bool.not_eq_true]
      intro hc
      exact hf2 ((has_fset_true_iff _ _ _).mp hc)

theorem hasFset_pre_imp {f : Pred} (hf : InducedHereditary f) {b : Int} {g : Graph}
    {m : Nat} (hm : m ≤ g.length) (h : HasFset f b (pre g m)) : HasFset f b g := by
  obtain ⟨s, hsort, hbnd, hlen, hfs⟩ := h
  have hbm : ∀ x ∈ s, x < m := by
    intro x hx
    have := hbnd x hx
    rw [pre_length] at this
    omega
  refine ⟨s, hsort, ?_, hlen, ?_⟩
  · intro x hx
    have := hbm x hx
    omega
  · rw [← hereditary_pre hf g m hm hsort hbm]
    exact hfs

theorem counterexample_pre {f1 f2 : Pred} {b1 b2 : Int}
    (h1 : InducedHereditary f1) (h2 : InducedHereditary f2)
    {h : Graph} {m : Nat} (hm : m ≤ h.length)
    (hc : Counterexample f1 f2 b1 b2 h) : Counterexample f1 f2 b1 b2 (pre h m) := by
  refine ⟨?_, ?_⟩
  · intro hfs
    exact hc.1 (hasFset_pre_imp h1 hm hfs)
  · intro hfs
    exact hc.2 (hasFset_pre_imp h2 hm hfs)

theorem mem_big_list {f1 f2 : Pred} {n : Nat} {b1 b2 : Int} {old : List Graph}
    {g' : Graph} :
    g' ∈ counterexamples_up_big_list f1 f2 n b1 b2 old ↔
      ∃ oldg ∈ old, ∃ vs : List Nat, vs.Sublist (List.range (n - 1)) ∧
        g' = extendGraph oldg (n - 1) vs ∧
        has_fset_with_last f1 b1 g' = false ∧ has_fset_with_last f2 b2 g' = false := by
  unfold counterexamples_up_big_list
  simp only [List.mem_flatMap, List.mem_filter, List.mem_map]
  constructor
  · rintro ⟨oldg, ho, ⟨vs, hvs, rfl⟩, hfil⟩
    rw [Bool.and_eq_true, Bool.not_eq_true', Bool.not_eq_true'] at hfil
    exact ⟨oldg, ho, vs, mem_powerset_iff.mp hvs, rfl, hfil.1, hfil.2⟩
  · rintro ⟨oldg, ho, vs, hvs, rfl, hfil1, hfil2⟩
    refine ⟨oldg, ho, ⟨vs, mem_powerset_iff.mpr hvs, rfl⟩, ?_⟩
    rw [Bool.and_eq_true, Bool.not_eq_true', Bool.not_eq_true']
    exact ⟨hfil1, hfil2⟩

theorem level_step {f1 f2 : Pred} {b1 b2 : Int} (h1 : InducedHereditary f1)
    (h2 : InducedHereditary f2) {m : Nat} {old : List Graph}
    (hinv : LevelInv f1 f2 b1 b2 old m) :
    LevelInv f1 f2 b1 b2 (counterexamples_up f1 f2 b1 b2 (m + 1) old) (m + 1) := by
  obtain ⟨helem, hcover, _⟩ := hinv
  have hstep_elem : ∀ g ∈ counterexamples_up f1 f2 b1 b2 (m + 1) old,
      ValidGraph g ∧ g.length = m + 1 ∧ Counterexample f1 f2 b1 b2 g := by
    intro g hg
    have hbl := mem_unique_iso hg
    obtain ⟨oldg, ho, vs, hvs, rfl, hfil1, hfil2⟩ := mem_big_list.mp hbl
    obtain ⟨hov, holen, hoce⟩ := helem oldg ho
    have hred : m + 1 - 1 = m := by omega
    rw [hred] at hvs
    obtain ⟨hvsort, hvbnd⟩ := sublist_range_sorted hvs
    have hvbnd' : ∀ v ∈ vs, v < oldg.length := by
      intro v hv
      rw [holen]
      exact hvbnd v hv
    have hrw : extendGraph oldg (m + 1 - 1) vs = extendGraph oldg oldg.length vs := by
      rw [hred, holen]
    rw [hrw] at hfil1 hfil2 ⊢
    have hvalid : ValidGraph (extendGraph oldg oldg.length vs) :=
      extendGraph_valid hov hvsort hvbnd'
    have hlen : (extendGraph oldg oldg.length vs).length = m + 1 := by
      rw [extendGraph_length, holen]
    refine ⟨hvalid, hlen, ?_⟩
    have hpre : pre (extendGraph oldg oldg.length vs)
        ((extendGraph oldg oldg.length vs).length - 1) = oldg := by
      rw [hlen, hred, ← holen]
      exact pre_extendGraph hov hvsort.nodup hvbnd'
    have hce_of : ∀ (f : Pred) (b : Int), InducedHereditary f →
        ¬ HasFset f b oldg →
        has_fset_with_last f b (extendGraph oldg oldg.length vs) = false →
        ¬ HasFset f b (extendGraph oldg oldg.length vs) := by
      intro f b hf hnold hwl
      have hp : has_fset f b (pre (extendGraph oldg oldg.length vs)
          ((extendGraph oldg oldg.length vs).length - 1)) = false := by
        rw [hpre]
        rw [← Bool.not_eq_true]
        intro hc
        exact hnold ((has_fset_true_iff _ _ _).mp hc)
      have heq := has_fset_eq_with_last hf (by omega) hp
      rw [hwl] at heq
      intro hc
      rw [← has_fset_true_iff] at hc
      rw [hc] at heq
      simp at heq
    exact ⟨hce_of f1 b1 h1 hoce.1 hfil1, hce_of f2 b2 h2 hoce.2 hfil2⟩
  refine ⟨hstep_elem, ?_, unique_iso_pairwise _⟩
  intro h hv hlen hce
  have hm_le : m ≤ h.length := by omega
  have hpv : ValidGraph (pre h m) := pre_valid hv hm_le
  have hplen : (pre h m).length = m := by
    rw [pre_length]
    omega
  have hpce : Counterexample f1 f2 b1 b2 (pre h m) := counterexample_pre h1 h2 hm_le hce
  obtain ⟨r, hr, hiso_rp⟩ := hcover (pre h m) hpv hplen hpce
  obtain ⟨hrv, hrlen, hrce⟩ := helem r hr
  have hvsort : (h.getD m []).Sorted (· < ·) := adjlist_sorted_of_valid hv m
  have hvbnd : ∀ x ∈ h.getD m [], x < (pre h m).length := by
    intro x hx
    rw [hplen]
    have hadj : Adj h m x := hx
    have := (adj_lt_of_valid hv hadj).2
    have hxm : x ≠ m := by
      rintro rfl
      exact adj_irrefl_of_valid hv x hadj
    omega
  obtain ⟨w, hwsort, hwbnd, hiso_cw⟩ := extend_iso hrv hpv hiso_rp hvsort hvbnd
  have hrec : extendGraph (pre h m) (pre h m).length (h.getD m []) = h :=
    pre_reconstruct hv hlen
  rw [hrec] at hiso_cw
  have hiso_ch : IsoP (extendGraph r (m + 1 - 1) w) h := by
    have : extendGraph r (m + 1 - 1) w = extendGraph r r.length w := by
      rw [Nat.add_sub_cancel, hrlen]
    rw [this]
    exact hiso_cw
  have hwl_false : ∀ (f : Pred) (b : Int), InducedHereditary f → ¬ HasFset f b h →
      has_fset_with_last f b (extendGraph r (m + 1 - 1) w) = false := by
    intro f b hf hnh
    rw [← Bool.not_eq_true]
    intro hc
    have h2' := with_last_imp_has_fset f b _ hc
    have h3 := (has_fset_true_iff _ _ _).mp h2'
    exact hnh (hasFset_of_iso hf hiso_ch h3)
  have hmem_bl : extendGraph r (m + 1 - 1) w ∈
      counterexamples_up_big_list f1 f2 (m + 1) b1 b2 old := by
    rw [mem_big_list]
    refine ⟨r, hr, w, ?_, rfl, hwl_false f1 b1 h1 hce.1, hwl_false f2 b2 h2 hce.2⟩
    apply sorted_sublist_range hwsort
    intro x hx
    have := hwbnd x hx
    rw [hrlen] at this
    omega
  obtain ⟨R, hRmem, hiso_Rc⟩ := unique_iso_cover _ _ hmem_bl
  exact ⟨R, hRmem, isoP_trans hiso_Rc hiso_ch⟩

theorem extremalsLoop_correct {f1 f2 : Pred} {b1 b2 : Int}
    (h1 : InducedHereditary f1) (h2 : InducedHereditary f2) :
    ∀ (fuel m : Nat) (gs : List Graph) (n' : Nat) (gs' : List Graph),
      1 ≤ m → gs ≠ [] → LevelInv f1 f2 b1 b2 gs (m - 1) →
      extremalsLoop f1 f2 b1 b2 fuel m gs = some (n', gs') →
      m ≤ n' ∧ gs' ≠ [] ∧ LevelInv f1 f2 b1 b2 gs' (n' - 1) ∧
      ¬ ∃ h, ValidGraph h ∧ h.length = n' ∧ Counterexample f1 f2 b1 b2 h := by
  intro fuel
  induction fuel with
  | zero =>
    intro m gs n' gs' _ _ _ h
    exact absurd h (by simp [extremalsLoop])
  | succ fuel ih =>
    intro m gs n' gs' hm hne hinv h
    simp only [extremalsLoop] at h
    have hstep : LevelInv f1 f2 b1 b2 (counterexamples_up f1 f2 b1 b2 m gs) m := by
      have := level_step h1 h2 hinv
      have hmeq : m - 1 + 1 = m := by omega
      rw [hmeq] at this
      exact this
    by_cases hz : (counterexamples_up f1 f2 b1 b2 m gs).length = 0
    · rw [if_pos hz] at h
      simp only [Option.some.injEq, Prod.mk.injEq] at h
      obtain ⟨rfl, rfl⟩ := h
      refine ⟨le_refl _, hne, hinv, ?_⟩
      rintro ⟨hg, hgv, hglen, hgce⟩
      obtain ⟨r, hr, _⟩ := hstep.2.1 hg hgv hglen hgce
      rw [List.length_eq_zero] at hz
      rw [hz] at hr
      exact absurd hr (List.not_mem_nil r)
    · rw [if_neg hz] at h
      have hres := ih (m + 1) _ n' gs' (by omega) ?_ ?_ h
      · exact ⟨by omega, hres.2⟩
      · intro hc
        rw [hc] at hz
        exact hz rfl
      · have hmeq : m + 1 - 1 = m := by omega
        rw [hmeq]
        exact hstep

theorem counterexamples_zero_cases {f1 f2 : Pred} {b1 b2 : Int} :
    (counterexamples_zero f1 f2 b1 b2 = [[]] ∧ Counterexample f1 f2 b1 b2 []) ∨
    (counterexamples_zero f1 f2 b1 b2 = [] ∧ ¬ Counterexample f1 f2 b1 b2 []) := by
  unfold counterexamples_zero graphs
  by_cases hc : (!has_fset f1 b1 [] && !has_fset f2 b2 []) = true
  · left
    refine ⟨?_, counterexample_iff_bool.mp hc⟩
    simp [List.filter_cons, hc]
  · right
    constructor
    · simp [List.filter_cons, hc]
    · intro hce
      exact hc (counterexample_iff_bool.mpr hce)

theorem validGraph_nil : ValidGraph [] := by decide

/-- C1: partial correctness of the extremal search engine. Under the
assumptions that f1 and f2 are induced-hereditary and b1, b2 are nonnegative,
whenever extremals terminates with some (n, gs): a valid counterexample graph
(no f1-set of order b1 and no f2-set of order b2) exists at every order
strictly below n; none exists at order n; n = 0 forces gs = []; and for
n >= 1, gs consists of valid counterexamples of order n-1, every valid
counterexample of order n-1 is isomorphic to some member of gs, and no two
members of gs are isomorphic (one representative per isomorphism class). -/
theorem c1_extremals_correct (fuel : Nat) (f1 f2 : Pred) (b1 b2 : Int)
    (h1 : InducedHereditary f1) (h2 : InducedHereditary f2)
    (hb1 : 0 ≤ b1) (hb2 : 0 ≤ b2) (n : Nat) (gs : List Graph)
    (hrun : extremals fuel f1 f2 b1 b2 = some (n, gs)) :
    (∀ m < n, ∃ g, ValidGraph g ∧ g.length = m ∧ Counterexample f1 f2 b1 b2 g) ∧
    (¬ ∃ g, ValidGraph g ∧ g.length = n ∧ Counterexample f1 f2 b1 b2 g) ∧
    (n = 0 → gs = []) ∧
    (1 ≤ n →
      (∀ r ∈ gs, ValidGraph r ∧ r.length = n - 1 ∧ Counterexample f1 f2 b1 b2 r) ∧
      (∀ h, ValidGraph h → h.length = n - 1 → Counterexample f1 f2 b1 b2 h →
        ∃ r ∈ gs, IsoP r h) ∧
      gs.Pairwise fun r1 r2 => ¬ IsoP r1 r2) := by
  unfold extremals at hrun
  dsimp only at hrun
  by_cases hz : (counterexamples_zero f1 f2 b1 b2).length = 0
  · rw [if_pos hz] at hrun
    simp only [Option.some.injEq, Prod.mk.injEq] at hrun
    obtain ⟨rfl, rfl⟩ := hrun
    refine ⟨by omega, ?_, fun _ => rfl, by omega⟩
    rintro ⟨g, hgv, hglen, hgce⟩
    rw [List.length_eq_zero] at hglen
    subst hglen
    rcases @counterexamples_zero_cases f1 f2 b1 b2 with
      ⟨heq, _⟩ | ⟨_, hnot⟩
    · rw [heq] at hz
      simp at hz
    · exact hnot hgce
  · rw [if_neg hz] at hrun
    rcases @counterexamples_zero_cases f1 f2 b1 b2 with
      ⟨heq, hce0⟩ | ⟨heq, _⟩
    swap
    · rw [heq] at hz
      simp at hz
    have hinv0 : LevelInv f1 f2 b1 b2 (counterexamples_zero f1 f2 b1 b2) (1 - 1) := by
      rw [heq]
      refine ⟨?_, ?_, ?_⟩
      · intro g hg
        rw [List.mem_singleton] at hg
        subst hg
        exact ⟨validGraph_nil, rfl, hce0⟩
      · intro h _ hlen _
        rw [List.length_eq_zero] at hlen
        subst hlen
        exact ⟨[], List.mem_singleton_self _, isoP_refl []⟩
      · exact List.pairwise_singleton _ _
    have hne0 : counterexamples_zero f1 f2 b1 b2 ≠ [] := by
      rw [heq]
      simp
    obtain ⟨hn1, hne', hinv', hnone⟩ :=
      extremalsLoop_correct h1 h2 fuel 1 _ n gs (le_refl 1) hne0 hinv0 hrun
    obtain ⟨g0, hg0⟩ := List.exists_mem_of_ne_nil gs hne'
    obtain ⟨hg0v, hg0len, hg0ce⟩ := hinv'.1 g0 hg0
    refine ⟨?_, hnone, by omega, fun _ => hinv'⟩
    intro m hm
    have hmle : m ≤ g0.length := by omega
    refine ⟨pre g0 m, pre_valid hg0v hmle, ?_, counterexample_pre h1 h2 hmle hg0ce⟩
    rw [pre_length]
    omega

/-- Witness for C1 at a concrete input: constant-true predicates with
b1 = b2 = 0 make the empty graph already satisfy both predicates, so the
search stops at order 0 with no extremal graphs. -/
theorem c1_extremals_correct_witness :
    InducedHereditary (fun _ _ => true) ∧ (0 : Int) ≤ 0 ∧
    extremals 1 (fun _ _ => true) (fun _ _ => true) 0 0 = some (0, []) ∧
    ((∀ m < 0, ∃ g, ValidGraph g ∧ g.length = m ∧
        Counterexample (fun _ _ => true) (fun _ _ => true) 0 0 g) ∧
      (¬ ∃ g, ValidGraph g ∧ g.length = 0 ∧
        Counterexample (fun _ _ => true) (fun _ _ => true) 0 0 g) ∧
      (0 = 0 → ([] : List Graph) = []) ∧
      (1 ≤ 0 →
        (∀ r ∈ ([] : List Graph), ValidGraph r ∧ r.length = 0 - 1 ∧
          Counterexample (fun _ _ => true) (fun _ _ => true) 0 0 r) ∧
        (∀ h, ValidGraph h → h.length = 0 - 1 →
          Counterexample (fun _ _ => true) (fun _ _ => true) 0 0 h →
          ∃ r ∈ ([] : List Graph), IsoP r h) ∧
        ([] : List Graph).Pairwise fun r1 r2 => ¬ IsoP r1 r2)) :=
  ⟨fun _ _ _ _ _ _ _ => rfl, le_refl 0, rfl,
    c1_extremals_correct 1 (fun _ _ => true) (fun _ _ => true) 0 0
      (fun _ _ _ _ _ _ _ => rfl) (fun _ _ _ _ _ _ _ => rfl)
      (le_refl 0) (le_refl 0) 0 [] rfl⟩
